import Mathlib

/-!
Verification of the amarajs/plugin-events event-binding engine
(src/index.js), shallowly embedded in Lean 4.

The embedding follows the source: spec-key parsing (the regex
rxEventAndSelectors, `trim`, `toLowerCase`, `split`), the friendly-name
tables `asMeta` and `fixMeta`, the per-target handler registry
(WeakMap of Map of arrays), native listener attach/detach, the
lifecycle dispatches of `applyEventsToTarget` / `removeTargetHandlers`,
the meta/delegation filters of `eventHandler`, the `async` flag
discipline of `getTargetDispatcher`, and the disabled-attribute
workaround (`prePatchDisabledBug` / `postPatchDisabledBug`).

JavaScript primitives are modelled executably: strings are `String`
(list of chars), `toLowerCase` / `trim` / `split` are structural
functions on the character list, DOM nodes are identified by `Nat`,
the CSS "matches selector" capability is an oracle parameter
`M : Node -> String -> Bool`, and user handler functions are opaque
identifiers (`Nat`).  Each `eventHandler` closure created by
`addHandlerForEvent` is a fresh function object, so the DOM's
add/removeEventListener identity semantics reduce to a fresh `wid`
per wrapper.
-/

namespace AmaraPluginEvents

/-- Model of JS String.prototype.toLowerCase (ASCII range, as produced by
Lean's `Char.toLower`), computed structurally on the character list. -/
def toLowerStr (s : String) : String := ⟨s.data.map Char.toLower⟩

/-- Model of JS String.prototype.trim: drop leading and trailing whitespace. -/
def jsTrim (s : String) : String :=
  ⟨((s.data.dropWhile Char.isWhitespace).reverse.dropWhile Char.isWhitespace).reverse⟩

/-- Helper for `splitOnChar`: accumulate the current piece (reversed). -/
def splitOnCharAux (c : Char) : List Char → List Char → List (List Char)
  | [], acc => [acc.reverse]
  | x :: xs, acc =>
    if x = c then acc.reverse :: splitOnCharAux c xs []
    else splitOnCharAux c xs (x :: acc)

/-- Model of JS String.prototype.split with a single-character separator
(the source only splits on "." and ","). -/
def splitOnChar (c : Char) (s : String) : List String :=
  (splitOnCharAux c s.data []).map (fun l => ⟨l⟩)

/-- Character-list core of String.startsWith. -/
def startsWithList : List Char → List Char → Bool
  | _, [] => true
  | [], _ :: _ => false
  | a :: as, b :: bs => a == b && startsWithList as bs

/-- Model of JS String.prototype.startsWith. -/
def startsWithStr (s t : String) : Bool := startsWithList s.data t.data

/-- Source `trimLower`: `s.trim().toLowerCase()`. -/
def trimLower (s : String) : String := toLowerStr (jsTrim s)

/-- Source `asMeta`: the friendly-name table for meta tokens. -/
def asMeta : String → String
  | "space" => " "
  | "left" => "0"
  | "middle" => "1"
  | "wheel" => "1"
  | "right" => "2"
  | v => v

/-- Source `fixMeta`: browser cross-compatibility fixup of live values. -/
def fixMeta : String → String
  | "del" => "delete"
  | v => v

/-- Source `metaEventMap`: which live event field is compared per event type. -/
def metaEventMap : String → Option String
  | "keydown" => some "key"
  | "keyup" => some "key"
  | "keypress" => some "key"
  | "mousedown" => some "button"
  | "mouseup" => some "button"
  | _ => none

/-- A DOM node, by identity. -/
abbrev Node := Nat

/-- A user handler function, by identity (handlers are opaque to the engine). -/
abbrev HandlerId := Nat

/-- Result of parsing one spec key (`addHandlerForEvent` lines 125-135):
the regex splits off the leading non-whitespace run; the remainder is
split on "," into trimmed, non-empty delegation selectors; the first
token is split on ".", each piece trimmed, lower-cased and passed
through `asMeta`; the head is the event type, the rest the meta tokens. -/
structure ParsedSpec where
  event : String
  meta : List String
  delegates : List String
deriving Repr, DecidableEq

/-- The regex `rxEventAndSelectors = /(^[^\s]+)\s*?(.*?)$/` splits a key into
the leading run of non-whitespace characters and the remainder. -/
def splitEventAndSelectors (s : String) : String × String :=
  (⟨s.data.takeWhile (fun c => !c.isWhitespace)⟩,
   ⟨s.data.dropWhile (fun c => !c.isWhitespace)⟩)

/-- Source spec-key parsing, from `addHandlerForEvent`. -/
def parseSpec (key : String) : ParsedSpec :=
  let em := splitEventAndSelectors key
  let delegates := ((splitOnChar ',' em.2).map jsTrim).filter (fun s => s != "")
  let toks := ((splitOnChar '.' em.1).map trimLower).map asMeta
  { event := toks.headD "", meta := toks.tail, delegates := delegates }

/-- A live DOM event as seen by `eventHandler`: its `type`, its originating
`target` (JS `e.target`), and the `key` / `button` fields. -/
structure Ev where
  type : String
  target : Node
  key : String
  button : Nat
deriving Repr, DecidableEq

/-- The stringified live comparison field `String(e[metaEventMap[e.type]])`:
`key` for keyboard events, `button` for mouse events, and the string
"undefined" when `metaEventMap` has no entry for the type. -/
def eventFieldString (e : Ev) : String :=
  match metaEventMap e.type with
  | some "key" => e.key
  | some "button" => toString e.button
  | _ => "undefined"

/-- Source line 137: `fixMeta(String(e[metaEventMap[e.type]]).toLowerCase())`. -/
def metaValue (e : Ev) : String := fixMeta (toLowerStr (eventFieldString e))

/-- The delegation check of `eventHandler` (line 138): pass when no
selectors were declared, or when some declared selector matches the
event's originating target under the matching oracle `M`. -/
def delegatesPass (M : Node → String → Bool) (delegates : List String) (e : Ev) : Bool :=
  delegates.isEmpty || delegates.any (fun s => M e.target s)

/-- The meta check of `eventHandler` (line 141):
`!meta.length || meta.includes(String(metaValue).toLowerCase())`. -/
def metaPass (meta : List String) (e : Ev) : Bool :=
  meta.isEmpty || meta.contains (toLowerStr (metaValue e))

/-- One bound `eventHandler` closure: its identity `wid` (each closure is a
fresh function object), the canonical event type it is registered under,
its captured meta tokens and delegation selectors, and the user handler
it wraps. -/
structure Wrapper where
  wid : Nat
  event : String
  meta : List String
  delegates : List String
  handler : HandlerId
deriving Repr, DecidableEq

/-- Whether a bound `eventHandler` invokes its user handler on event `e`
(the two early-return filters of lines 138-143). -/
def wrapperFires (M : Node → String → Bool) (w : Wrapper) (e : Ev) : Bool :=
  delegatesPass M w.delegates e && metaPass w.meta e

/-- The observable content of a binding (wrapper without its closure id). -/
structure Binding where
  event : String
  meta : List String
  delegates : List String
  handler : HandlerId
deriving Repr, DecidableEq

/-- Forget a wrapper's closure identity. -/
def Wrapper.toBinding (w : Wrapper) : Binding :=
  { event := w.event, meta := w.meta, delegates := w.delegates, handler := w.handler }

/-- The binding a spec entry `(key, handler)` produces, per `parseSpec`. -/
def bindingOf (kh : String × HandlerId) : Binding :=
  let p := parseSpec kh.1
  { event := p.event, meta := p.meta, delegates := p.delegates, handler := kh.2 }

/-- Filter decision factored through `Binding`. -/
def bindingFires (M : Node → String → Bool) (b : Binding) (e : Ev) : Bool :=
  delegatesPass M b.delegates e && metaPass b.meta e

/-- Association-list lookup, modelling JS `Map.get` / `WeakMap.get`. -/
def aget {κ α : Type} [DecidableEq κ] : List (κ × α) → κ → Option α
  | [], _ => none
  | (k, v) :: rest, k' => if k = k' then some v else aget rest k'

/-- Association-list update, modelling JS `Map.set` / `WeakMap.set`
(replaces in place, preserving insertion order; appends new keys). -/
def aset {κ α : Type} [DecidableEq κ] : List (κ × α) → κ → α → List (κ × α)
  | [], k, v => [(k, v)]
  | (k0, v0) :: rest, k, v =>
    if k0 = k then (k, v) :: rest else (k0, v0) :: aset rest k v

/-- Association-list deletion, modelling JS `Map.delete` / `WeakMap.delete`. -/
def adel {κ α : Type} [DecidableEq κ] (l : List (κ × α)) (k : κ) : List (κ × α) :=
  l.filter (fun kv => kv.1 != k)

/-- The engine's mutable state: the handler registry
(`targetHandlers : WeakMap<Node, Map<string, EventHandler[]>>`), the DOM's
per-node listener lists (in `addEventListener` order), the trace of
lifecycle events the engine has dispatched (node, type, and the user
handlers the dispatch invoked), and the counter that provides fresh
`eventHandler` closure identities. -/
structure EngineState where
  registry : List (Node × List (String × List Wrapper))
  listeners : List (Node × List Wrapper)
  fired : List (Node × String × List HandlerId)
  nextId : Nat
deriving Repr, DecidableEq

/-- Initial state: empty registry, no listeners, nothing fired. -/
def init : EngineState :=
  { registry := [], listeners := [], fired := [], nextId := 0 }

/-- The DOM listener list of a node, in attach order. -/
def listenersOf (st : EngineState) (n : Node) : List Wrapper :=
  (aget st.listeners n).getD []

/-- The registry entry of a node (`targetHandlers.get(target)`). -/
def registryOf (st : EngineState) (n : Node) : Option (List (String × List Wrapper)) :=
  aget st.registry n

/-- The registered wrapper array of a node for one event type. -/
def registryArr (st : EngineState) (n : Node) (ev : String) : List Wrapper :=
  (aget ((registryOf st n).getD []) ev).getD []

/-- DOM `target.removeEventListener(type, handler)`: detach the listener
with the given closure identity registered under the given type. -/
def removeEventListener (st : EngineState) (n : Node) (ty : String) (wid : Nat) : EngineState :=
  { st with listeners := (aset st.listeners n
      ((listenersOf st n).filter (fun w => !(w.event == ty && w.wid == wid)))) }

/-- Source `removeListeners` (lines 43-45): detach every wrapper of one
registry entry from the node. -/
def removeListenersOfEntry (st : EngineState) (n : Node) (entry : String × List Wrapper) :
    EngineState :=
  entry.2.foldl (fun st w => removeEventListener st n entry.1 w.wid) st

/-- An event map, in key iteration order: spec key paired with the user
handler stored under it. -/
abbrev EventMap := List (String × HandlerId)

/-- The per-apply-call context of `applyEventsToTarget` (target and the
`added` lifecycle flag). -/
structure ApplyCtx where
  target : Node
  added : Bool
deriving Repr, DecidableEq

/-- Build the wrapper a spec entry produces. -/
def mkWrapper (wid : Nat) (p : ParsedSpec) (h : HandlerId) : Wrapper :=
  { wid := wid, event := p.event, meta := p.meta, delegates := p.delegates, handler := h }

/-- The validation of lines 150-152: an `amara:*` event type combined with
at least one delegation selector throws. -/
def specThrows (p : ParsedSpec) : Bool :=
  startsWithStr p.event "amara:" && !p.delegates.isEmpty

/-- Source `addHandlerForEvent` (lines 121-162): parse the key, validate,
create the registry entry when absent (setting the `added` flag), append a
fresh `eventHandler` wrapper to the per-event array and attach it as a
native listener.  The attach is a plain append because each wrapper is a
fresh closure, so the DOM's duplicate-listener check never fires. -/
def addHandlerForEvent (st : EngineState) (ctx : ApplyCtx) (key : String) (h : HandlerId) :
    Except String (EngineState × ApplyCtx) :=
  let p := parseSpec key
  if specThrows p then .error "amara:* events must not be delegated"
  else
    let created := (registryOf st ctx.target).isNone
    let m := (registryOf st ctx.target).getD []
    let arr := (aget m p.event).getD []
    let w := mkWrapper st.nextId p h
    .ok ({ st with
            registry := aset st.registry ctx.target (aset m p.event (arr ++ [w])),
            listeners := aset st.listeners ctx.target (listenersOf st ctx.target ++ [w]),
            nextId := st.nextId + 1 },
         { ctx with added := ctx.added || created })

/-- Source `applyEventMap` over the flattened list of spec entries:
process each `(key, handler)` in order, stopping at the first throw and
returning the state that existed at the throw. -/
def applyEntries (st : EngineState) (ctx : ApplyCtx) :
    List (String × HandlerId) → EngineState × ApplyCtx × Option String
  | [] => (st, ctx, none)
  | (k, h) :: rest =>
    match addHandlerForEvent st ctx k h with
    | .error msg => (st, ctx, some msg)
    | .ok (st', ctx') => applyEntries st' ctx' rest

/-- The clearing phase of `applyEventsToTarget` (lines 175-177): detach
every wrapper held in the target's registry entry, then empty the entry
(the `Map` object itself stays in the WeakMap, so the entry remains). -/
def clearTargetBindings (st : EngineState) (n : Node) : EngineState :=
  match registryOf st n with
  | none => st
  | some m =>
    let st := m.foldl (fun st entry => removeListenersOfEntry st n entry) st
    { st with registry := aset st.registry n [] }

/-- The synthetic event `dispatchActionAsEvent` builds for a lifecycle
action: a CustomEvent has no `key` or `button` field. -/
def lifecycleEv (n : Node) (ty : String) : Ev :=
  { type := ty, target := n, key := "", button := 0 }

/-- The user handlers a dispatch of type `ty` at node `n` invokes: the
node's listeners for that type whose filters pass, in attach order. -/
def lifecycleInvoked (M : Node → String → Bool) (st : EngineState) (n : Node)
    (ty : String) : List HandlerId :=
  ((listenersOf st n).filter
    (fun w => w.event == ty && wrapperFires M w (lifecycleEv n ty))).map (fun w => w.handler)

/-- Source `syncDispatch` of a lifecycle action through
`dispatchActionAsEvent`: the `async` flag is lowered for the call, the
event is dispatched on the target (invoking its attached listeners), and
the flag is raised again.  The engine state records the dispatch in the
`fired` trace. -/
def dispatchLifecycle (M : Node → String → Bool) (st : EngineState) (n : Node)
    (ty : String) : EngineState :=
  { st with fired := st.fired ++ [(n, ty, lifecycleInvoked M st n ty)] }

/-- Source `applyEventsToTarget` (lines 169-181): clear the target's
previous bindings, bind every entry of every map in order, then fire
`amara:add` when the registry entry was created by this call, and
`amara:apply`.  A throw aborts the call, skipping the lifecycle events
and leaving the state that existed at the throw. -/
def applyEventsToTarget (M : Node → String → Bool) (st : EngineState)
    (maps : List EventMap) (target : Node) : EngineState × Option String :=
  let st1 := clearTargetBindings st target
  let r := applyEntries st1 { target := target, added := false } maps.flatten
  match r.2.2 with
  | some msg => (r.1, some msg)
  | none =>
    let st2 := if r.2.1.added then dispatchLifecycle M r.1 target "amara:add" else r.1
    (dispatchLifecycle M st2 target "amara:apply", none)

/-- Source `removeTargetHandlers` (lines 183-191): when the target has a
registry entry, fire `amara:remove` (with the listeners still attached),
delete the entry, and detach every listener it held; otherwise do nothing. -/
def removeTargetHandlers (M : Node → String → Bool) (st : EngineState) (n : Node) :
    EngineState :=
  match registryOf st n with
  | none => st
  | some m =>
    let st := dispatchLifecycle M st n "amara:remove"
    let st := { st with registry := adel st.registry n }
    m.foldl (fun st entry => removeListenersOfEntry st n entry) st

/-- The host actions the returned handler reacts to (lines 193-204).
`core:bootstrap` only records the root used for proxying bubbled actions
back to the host, which no claim concerns, so it is omitted. -/
inductive HostAction where
  | applyTargetResults (pairs : List (List EventMap × Node))
  | targetsRemoved (nodes : List Node)

/-- Process the `(results, target)` pairs of one `core:apply-target-results`
action; a throw propagates, aborting the remaining pairs. -/
def applyPairs (M : Node → String → Bool) (st : EngineState) :
    List (List EventMap × Node) → EngineState × Option String
  | [] => (st, none)
  | (maps, n) :: rest =>
    match applyEventsToTarget M st maps n with
    | (st', some msg) => (st', some msg)
    | (st', none) => applyPairs M st' rest

/-- One host action step. -/
def step (M : Node → String → Bool) (st : EngineState) :
    HostAction → EngineState × Option String
  | .applyTargetResults pairs => applyPairs M st pairs
  | .targetsRemoved ns => (ns.foldl (fun s n => removeTargetHandlers M s n) st, none)

/-- Run a sequence of host actions from the initial state (a throw aborts
the action it occurs in; the host may keep calling with later actions). -/
def run (M : Node → String → Bool) (acts : List HostAction) : EngineState :=
  acts.foldl (fun st a => (step M st a).1) init

/-- Fire a native DOM event `e` delivered at node `n` (bubbling across
ancestors is the platform's job and is not reimplemented): the platform
invokes the node's listeners for `e.type` in attach order, and each
`eventHandler` wrapper invokes its user handler iff its filters pass.
Returns the invoked user handlers in order. -/
def fireEvent (M : Node → String → Bool) (st : EngineState) (e : Ev) (n : Node) :
    List HandlerId :=
  ((listenersOf st n).filter (fun w => w.event == e.type && wrapperFires M w e)).map
    (fun w => w.handler)

/-! Model of the `async` flag discipline (claim C7).

`getTargetDispatcher`'s `dispatchActionAsEvent` throws when the module
flag `async` is `true` (line 108); `eventHandler` lowers the flag
before invoking a user handler and raises it after (lines 144-147).
Dispatching an event runs, for each bound wrapper of that type whose
filters pass, the wrapper protocol (flag low, user code, flag high).
User handler bodies are sequences of `e.dispatch` calls; other
statements do not touch the engine.  `Env` maps an event type to the
bodies of the handlers bound for it on the target (filters passing).
Fuel bounds dispatch nesting, exactly as the JS call stack does. -/

/-- One statement of a user handler body that the engine can observe:
a call to `e.dispatch({type: t})`. -/
inductive Act where
  | dispatch (t : String)
deriving Repr, DecidableEq

/-- The handler bodies bound for each event type on the target. -/
abbrev DispatchEnv := String → List (List Act)

/-- The error thrown at line 108 of the source. -/
def syncMsg : String := "Event actions must be dispatched synchronously."

/-- Run a handler body: each `e.dispatch` call goes through
`dispatchActionAsEvent` with the current flag, which threads on. -/
def runActs (stepDisp : String → Bool → List String → Except String (Bool × List String)) :
    List Act → Bool → List String → Except String (Bool × List String)
  | [], flag, tr => .ok (flag, tr)
  | .dispatch t :: rest, flag, tr =>
    match stepDisp t flag tr with
    | .error msg => .error msg
    | .ok (flag', tr') => runActs stepDisp rest flag' tr'

/-- Run the wrappers invoked by one `dispatchEvent` call, in order: each
wrapper sets `async = false`, runs its user handler body, and sets
`async = true` (lines 144-147).  With no wrappers the flag is untouched. -/
def runWrappers (stepDisp : String → Bool → List String → Except String (Bool × List String)) :
    List (List Act) → Bool → List String → Except String (Bool × List String)
  | [], flag, tr => .ok (flag, tr)
  | body :: rest, _, tr =>
    match runActs stepDisp body false tr with
    | .error msg => .error msg
    | .ok (_, tr') => runWrappers stepDisp rest true tr'

/-- Source `dispatchActionAsEvent` restricted to its flag discipline:
throw when `async` is true (line 108), otherwise dispatch the event,
which runs the bound wrappers (line 114).  The trace records dispatched
types. -/
def runDisp (env : DispatchEnv) :
    Nat → String → Bool → List String → Except String (Bool × List String)
  | 0, _, _, _ => .error "call stack exhausted"
  | fuel + 1, t, flag, tr =>
    if flag then .error syncMsg
    else runWrappers (runDisp env fuel) (env t) flag (tr ++ [t])

/-! Model of the disabled-element workaround (claim C9).

A target's attributes are an association list from attribute name to
value; `patched` records whether `setAttribute` / `removeAttribute` are
currently the intercepting functions installed by `prePatchDisabledBug`. -/

/-- A target's attribute map and whether its attribute-mutation
operations are currently patched. -/
structure TargetNode where
  attrs : List (String × String)
  patched : Bool
deriving Repr, DecidableEq

/-- One attribute mutation performed by user code in a handler during the
dispatch, through the target's (patched) operations. -/
inductive AttrOp where
  | set (name value : String)
  | remove (name : String)
deriving Repr, DecidableEq

/-- The recording state of `prePatchDisabledBug`'s `meta` object together
with the target. -/
structure PatchState where
  target : TargetNode
  disabled : Bool
deriving Repr, DecidableEq

/-- Source `prePatchDisabledBug` (lines 75-94): record whether the target
has a "disabled" attribute, remove it, and install the intercepting
`setAttribute` / `removeAttribute`. -/
def prePatchDisabledBug (t : TargetNode) : PatchState :=
  { target := { attrs := adel t.attrs "disabled", patched := true },
    disabled := aget t.attrs "disabled" |>.isSome }

/-- One attribute mutation through the patched operations (lines 82-93):
mutations of "disabled" are recorded in `meta.disabled` instead of being
applied; all other attributes go through the original operations. -/
def patchedStep (s : PatchState) : AttrOp → PatchState
  | .set name value =>
    if name = "disabled" then { s with disabled := true }
    else { s with target := { s.target with attrs := aset s.target.attrs name value } }
  | .remove name =>
    if name = "disabled" then { s with disabled := false }
    else { s with target := { s.target with attrs := adel s.target.attrs name } }

/-- Source `postPatchDisabledBug` (lines 96-100): restore the original
operations, then apply the recorded disabled state exactly once. -/
def postPatchDisabledBug (s : PatchState) : TargetNode :=
  let t := { s.target with patched := false }
  if s.disabled then { t with attrs := aset t.attrs "disabled" "" }
  else { t with attrs := adel t.attrs "disabled" }

/-- The attribute effect of one `dispatchActionAsEvent` call on its target
(lines 113-115): pre-patch, the attribute mutations user code performs
during the dispatch, post-patch. -/
def dispatchAttrEffect (t : TargetNode) (ops : List AttrOp) : TargetNode :=
  postPatchDisabledBug (ops.foldl patchedStep (prePatchDisabledBug t))

/-- The same mutations applied through the original, unpatched operations. -/
def normalStep (attrs : List (String × String)) : AttrOp → List (String × String)
  | .set name value => aset attrs name value
  | .remove name => adel attrs name

/-- The disabled state user code last established during the dispatch,
starting from the pre-dispatch state `b`. -/
def disabledStateAfter (ops : List AttrOp) (b : Bool) : Bool :=
  ops.foldl
    (fun b op =>
      match op with
      | .set name _ => if name = "disabled" then true else b
      | .remove name => if name = "disabled" then false else b)
    b

/-! Helper lemmas: strings. -/

/-- Unpacking `Char.ofNat` at a valid codepoint. -/
theorem char_toNat_ofNat_valid (n : Nat) (h : n.isValidChar) :
    (Char.ofNat n).toNat = n := by
  simp [Char.ofNat, dif_pos h, Char.ofNatAux, Char.toNat, UInt32.toNat]

/-- Lowering an already lowered character changes nothing. -/
theorem char_toLower_idem (c : Char) : c.toLower.toLower = c.toLower := by
  by_cases h : c.toNat ≥ 65 ∧ c.toNat ≤ 90
  · have hv : (c.toNat + 32).isValidChar := Or.inl (by omega)
    have h1 : c.toLower = Char.ofNat (c.toNat + 32) := by
      simp only [Char.toLower]
      rw [if_pos h]
    have ht : (Char.ofNat (c.toNat + 32)).toNat = c.toNat + 32 :=
      char_toNat_ofNat_valid _ hv
    rw [h1]
    simp only [Char.toLower]
    rw [if_neg (by rw [ht]; omega)]
  · have h1 : c.toLower = c := by
      simp only [Char.toLower]
      rw [if_neg h]
    rw [h1, h1]

/-- Lowering an already lowered string changes nothing. -/
theorem toLowerStr_idem (s : String) : toLowerStr (toLowerStr s) = toLowerStr s := by
  simp [toLowerStr, List.map_map, Function.comp_def, char_toLower_idem]

/-- The value `eventHandler` compares, `String(metaValue).toLowerCase()`
with `metaValue = fixMeta(raw.toLowerCase())`, is already lower case: the
second lowering is the identity. -/
theorem toLowerStr_fixMeta_toLowerStr (s : String) :
    toLowerStr (fixMeta (toLowerStr s)) = fixMeta (toLowerStr s) := by
  by_cases h : toLowerStr s = "del"
  · rw [h]
    decide
  · have hfix : fixMeta (toLowerStr s) = toLowerStr s := by
      unfold fixMeta
      split
      case _ heq => exact absurd heq h
      case _ => rfl
    rw [hfix, toLowerStr_idem]

/-! Helper lemmas: association lists. -/

theorem aget_aset_self {κ α : Type} [DecidableEq κ] (l : List (κ × α)) (k : κ) (v : α) :
    aget (aset l k v) k = some v := by
  induction l with
  | nil => simp [aset, aget]
  | cons kv rest ih =>
    obtain ⟨k0, v0⟩ := kv
    by_cases h : k0 = k
    · subst h
      simp [aset, aget]
    · simp [aset, h, aget, ih]

theorem aget_aset_ne {κ α : Type} [DecidableEq κ] (l : List (κ × α)) (k k' : κ) (v : α)
    (h : k' ≠ k) : aget (aset l k v) k' = aget l k' := by
  have hne : ¬k = k' := fun hh => h hh.symm
  induction l with
  | nil =>
    simp only [aset, aget]
    rw [if_neg hne]
  | cons kv rest ih =>
    obtain ⟨k0, v0⟩ := kv
    by_cases h0 : k0 = k
    · subst h0
      simp only [aset, if_pos rfl, aget]
      rw [if_neg hne, if_neg hne]
    · simp only [aset, if_neg h0, aget]
      by_cases h1 : k0 = k'
      · rw [if_pos h1, if_pos h1]
      · rw [if_neg h1, if_neg h1, ih]

theorem aget_adel_self {κ α : Type} [DecidableEq κ] (l : List (κ × α)) (k : κ) :
    aget (adel l k) k = none := by
  induction l with
  | nil => rfl
  | cons kv rest ih =>
    obtain ⟨k0, v0⟩ := kv
    by_cases h : k0 = k
    · subst h
      simpa [adel, List.filter_cons] using ih
    · have hb : ((k0, v0).1 != k) = true := by simp [h]
      simp only [adel, List.filter_cons, hb, if_true, aget]
      rw [if_neg h]
      exact ih

theorem aget_adel_ne {κ α : Type} [DecidableEq κ] (l : List (κ × α)) (k k' : κ)
    (h : k' ≠ k) : aget (adel l k) k' = aget l k' := by
  induction l with
  | nil => rfl
  | cons kv rest ih =>
    obtain ⟨k0, v0⟩ := kv
    by_cases h0 : k0 = k
    · subst h0
      have hne : ¬k0 = k' := fun hh => h hh.symm
      simp only [adel, List.filter_cons, bne_self_eq_false] at ih ⊢
      simp only [Bool.false_eq_true, if_false, aget]
      rw [if_neg hne]
      exact ih
    · have hb : ((k0, v0).1 != k) = true := by simp [h0]
      simp only [adel, List.filter_cons, hb, if_true, aget]
      by_cases h1 : k0 = k'
      · rw [if_pos h1, if_pos h1]
      · rw [if_neg h1, if_neg h1]
        exact ih

theorem aget_mem {κ α : Type} [DecidableEq κ] (l : List (κ × α)) (k : κ) (v : α)
    (h : aget l k = some v) : (k, v) ∈ l := by
  induction l with
  | nil => simp [aget] at h
  | cons kv rest ih =>
    obtain ⟨k0, v0⟩ := kv
    by_cases h0 : k0 = k
    · subst h0
      simp [aget] at h
      subst h
      exact List.mem_cons_self _ _
    · simp [aget, h0] at h
      exact List.mem_cons_of_mem _ (ih h)

/-! Helper lemmas: listener detaching. -/

/-- Whether a listener survives the detach calls for one registry entry. -/
def survivesEntry (entry : String × List Wrapper) (w' : Wrapper) : Bool :=
  entry.2.all (fun w => !(w'.event == entry.1 && w'.wid == w.wid))

/-- Whether a listener survives the detach calls for a whole registry map. -/
def survivesMap (m : List (String × List Wrapper)) (w' : Wrapper) : Bool :=
  m.all (fun entry => survivesEntry entry w')

theorem removeEventListener_fields (st : EngineState) (n : Node) (ty : String) (wid : Nat) :
    (removeEventListener st n ty wid).registry = st.registry ∧
    (removeEventListener st n ty wid).fired = st.fired ∧
    (removeEventListener st n ty wid).nextId = st.nextId := ⟨rfl, rfl, rfl⟩

theorem listenersOf_removeEventListener_self (st : EngineState) (n : Node) (ty : String)
    (wid : Nat) :
    listenersOf (removeEventListener st n ty wid) n =
      (listenersOf st n).filter (fun w => !(w.event == ty && w.wid == wid)) := by
  simp [removeEventListener, listenersOf, aget_aset_self]

theorem listenersOf_removeEventListener_ne (st : EngineState) (n m : Node) (ty : String)
    (wid : Nat) (h : m ≠ n) :
    listenersOf (removeEventListener st n ty wid) m = listenersOf st m := by
  simp [removeEventListener, listenersOf, aget_aset_ne _ _ _ _ h]

theorem fold_removeEventListener_self (ws : List Wrapper) (ev : String) (n : Node) :
    ∀ st : EngineState,
      listenersOf (ws.foldl (fun st w => removeEventListener st n ev w.wid) st) n =
        (listenersOf st n).filter (fun w' => ws.all (fun w => !(w'.event == ev && w'.wid == w.wid))) := by
  induction ws with
  | nil =>
    intro st
    simp
  | cons w ws ih =>
    intro st
    rw [List.foldl_cons, ih, listenersOf_removeEventListener_self, List.filter_filter]
    refine List.filter_congr ?_
    intro a _
    rw [List.all_cons, Bool.and_comm]

theorem fold_removeEventListener_other (ws : List Wrapper) (ev : String) (n m : Node)
    (h : m ≠ n) :
    ∀ st : EngineState,
      listenersOf (ws.foldl (fun st w => removeEventListener st n ev w.wid) st) m =
        listenersOf st m := by
  induction ws with
  | nil => intro st; rfl
  | cons w ws ih =>
    intro st
    rw [List.foldl_cons, ih, listenersOf_removeEventListener_ne _ _ _ _ _ h]

theorem fold_removeEventListener_fields (ws : List Wrapper) (ev : String) (n : Node) :
    ∀ st : EngineState,
      (ws.foldl (fun st w => removeEventListener st n ev w.wid) st).registry = st.registry ∧
      (ws.foldl (fun st w => removeEventListener st n ev w.wid) st).fired = st.fired ∧
      (ws.foldl (fun st w => removeEventListener st n ev w.wid) st).nextId = st.nextId := by
  induction ws with
  | nil => intro st; exact ⟨rfl, rfl, rfl⟩
  | cons w ws ih =>
    intro st
    rw [List.foldl_cons]
    exact ih _

theorem removeListenersOfEntry_self (st : EngineState) (n : Node)
    (entry : String × List Wrapper) :
    listenersOf (removeListenersOfEntry st n entry) n =
      (listenersOf st n).filter (survivesEntry entry) :=
  fold_removeEventListener_self entry.2 entry.1 n st

theorem removeListenersOfEntry_other (st : EngineState) (n m : Node)
    (entry : String × List Wrapper) (h : m ≠ n) :
    listenersOf (removeListenersOfEntry st n entry) m = listenersOf st m :=
  fold_removeEventListener_other entry.2 entry.1 n m h st

theorem fold_removeEntries_self (m : List (String × List Wrapper)) (n : Node) :
    ∀ st : EngineState,
      listenersOf (m.foldl (fun st entry => removeListenersOfEntry st n entry) st) n =
        (listenersOf st n).filter (survivesMap m) := by
  induction m with
  | nil =>
    intro st
    exact (List.filter_eq_self.mpr (fun a _ => rfl)).symm
  | cons entry rest ih =>
    intro st
    rw [List.foldl_cons, ih, removeListenersOfEntry_self, List.filter_filter]
    refine List.filter_congr ?_
    intro a _
    simp only [survivesMap, List.all_cons, Bool.and_comm]

theorem fold_removeEntries_other (m : List (String × List Wrapper)) (n nn : Node)
    (h : nn ≠ n) :
    ∀ st : EngineState,
      listenersOf (m.foldl (fun st entry => removeListenersOfEntry st n entry) st) nn =
        listenersOf st nn := by
  induction m with
  | nil => intro st; rfl
  | cons entry rest ih =>
    intro st
    rw [List.foldl_cons, ih, removeListenersOfEntry_other _ _ _ _ h]

theorem fold_removeEntries_fields (m : List (String × List Wrapper)) (n : Node) :
    ∀ st : EngineState,
      (m.foldl (fun st entry => removeListenersOfEntry st n entry) st).registry = st.registry ∧
      (m.foldl (fun st entry => removeListenersOfEntry st n entry) st).fired = st.fired ∧
      (m.foldl (fun st entry => removeListenersOfEntry st n entry) st).nextId = st.nextId := by
  induction m with
  | nil => intro st; exact ⟨rfl, rfl, rfl⟩
  | cons entry rest ih =>
    intro st
    rw [List.foldl_cons]
    have he := fold_removeEventListener_fields entry.2 entry.1 n st
    have hr := ih (removeListenersOfEntry st n entry)
    exact ⟨hr.1.trans he.1, hr.2.1.trans he.2.1, hr.2.2.trans he.2.2⟩

/-- The central well-formedness invariant of reachable engine states: every
attached listener of a node is recorded in that node's registry entry under
its own event type. -/
def Inv (st : EngineState) : Prop :=
  ∀ n : Node, ∀ w ∈ listenersOf st n, w ∈ registryArr st n w.event

/-- A listener recorded in the registry map does not survive the detach
fold over that map. -/
theorem survivesMap_false (m : List (String × List Wrapper)) (w : Wrapper)
    (arr : List Wrapper) (hget : aget m w.event = some arr) (hmem : w ∈ arr) :
    survivesMap m w = false := by
  have hentry : (w.event, arr) ∈ m := aget_mem _ _ _ hget
  have hfail : survivesEntry (w.event, arr) w = false := by
    simp only [survivesEntry, List.all_eq_false]
    exact ⟨w, hmem, by simp⟩
  simp only [survivesMap, List.all_eq_false]
  exact ⟨(w.event, arr), hentry, by simp [hfail]⟩

/-! Helper lemmas: clearing a target's bindings. -/

theorem clearTargetBindings_eq_none (st : EngineState) (n : Node)
    (hreg : registryOf st n = none) : clearTargetBindings st n = st := by
  unfold clearTargetBindings
  rw [hreg]

theorem clearTargetBindings_eq_some (st : EngineState) (n : Node)
    (m : List (String × List Wrapper)) (hreg : registryOf st n = some m) :
    clearTargetBindings st n =
      { (m.foldl (fun st entry => removeListenersOfEntry st n entry) st) with
        registry :=
          aset (m.foldl (fun st entry => removeListenersOfEntry st n entry) st).registry n [] } := by
  unfold clearTargetBindings
  rw [hreg]

theorem clearTargetBindings_listeners_self (st : EngineState) (n : Node) (h : Inv st) :
    listenersOf (clearTargetBindings st n) n = [] := by
  cases hreg : registryOf st n with
  | none =>
    rw [clearTargetBindings_eq_none st n hreg]
    refine List.eq_nil_iff_forall_not_mem.mpr (fun w hw => ?_)
    have hmem := h n w hw
    rw [registryArr, hreg] at hmem
    simp [aget] at hmem
  | some m =>
    rw [clearTargetBindings_eq_some st n m hreg]
    have hl : listenersOf { (m.foldl (fun st entry => removeListenersOfEntry st n entry) st) with
        registry := aset (m.foldl (fun st entry => removeListenersOfEntry st n entry) st).registry n [] } n =
        listenersOf (m.foldl (fun st entry => removeListenersOfEntry st n entry) st) n := rfl
    rw [hl, fold_removeEntries_self]
    refine List.filter_eq_nil_iff.mpr (fun w hw => ?_)
    have hmem := h n w hw
    rw [registryArr, hreg] at hmem
    simp only [Option.getD_some] at hmem
    cases harr : aget m w.event with
    | none =>
      rw [harr] at hmem
      simp at hmem
    | some arr =>
      rw [harr] at hmem
      simp only [Option.getD_some] at hmem
      simp [survivesMap_false m w arr harr hmem]

theorem clearTargetBindings_listeners_ne (st : EngineState) (n m : Node) (h : m ≠ n) :
    listenersOf (clearTargetBindings st n) m = listenersOf st m := by
  cases hreg : registryOf st n with
  | none => rw [clearTargetBindings_eq_none st n hreg]
  | some mm =>
    rw [clearTargetBindings_eq_some st n mm hreg]
    have hl : listenersOf { (mm.foldl (fun st entry => removeListenersOfEntry st n entry) st) with
        registry := aset (mm.foldl (fun st entry => removeListenersOfEntry st n entry) st).registry n [] } m =
        listenersOf (mm.foldl (fun st entry => removeListenersOfEntry st n entry) st) m := rfl
    rw [hl, fold_removeEntries_other _ _ _ h]

theorem clearTargetBindings_registry_self (st : EngineState) (n : Node) (ev : String) :
    registryArr (clearTargetBindings st n) n ev = [] := by
  cases hreg : registryOf st n with
  | none =>
    rw [clearTargetBindings_eq_none st n hreg, registryArr, hreg]
    simp [aget]
  | some m =>
    rw [clearTargetBindings_eq_some st n m hreg, registryArr, registryOf]
    show (aget ((aget (aset (m.foldl (fun st entry => removeListenersOfEntry st n entry) st).registry n []) n).getD []) ev).getD [] = []
    rw [aget_aset_self]
    simp [aget]

theorem clearTargetBindings_registryOf_ne (st : EngineState) (n m : Node) (h : m ≠ n) :
    registryOf (clearTargetBindings st n) m = registryOf st m := by
  cases hreg : registryOf st n with
  | none => rw [clearTargetBindings_eq_none st n hreg]
  | some mm =>
    rw [clearTargetBindings_eq_some st n mm hreg, registryOf]
    show aget (aset (mm.foldl (fun st entry => removeListenersOfEntry st n entry) st).registry n []) m = _
    rw [aget_aset_ne _ _ _ _ h]
    rw [(fold_removeEntries_fields mm n st).1]
    rfl

theorem clearTargetBindings_fired (st : EngineState) (n : Node) :
    (clearTargetBindings st n).fired = st.fired := by
  cases hreg : registryOf st n with
  | none => rw [clearTargetBindings_eq_none st n hreg]
  | some m =>
    rw [clearTargetBindings_eq_some st n m hreg]
    exact (fold_removeEntries_fields m n st).2.1

theorem clearTargetBindings_registryOf_self (st : EngineState) (n : Node) :
    registryOf (clearTargetBindings st n) n =
      if (registryOf st n).isSome then some [] else none := by
  cases hreg : registryOf st n with
  | none =>
    rw [clearTargetBindings_eq_none st n hreg, hreg]
    rfl
  | some m =>
    rw [clearTargetBindings_eq_some st n m hreg]
    show aget (aset (m.foldl (fun st entry => removeListenersOfEntry st n entry) st).registry n []) n = _
    rw [aget_aset_self]
    rfl

/-! Helper lemmas: binding spec entries. -/

theorem addHandlerForEvent_err (st : EngineState) (ctx : ApplyCtx) (k : String) (h : HandlerId)
    (hbad : specThrows (parseSpec k) = true) :
    addHandlerForEvent st ctx k h = .error "amara:* events must not be delegated" := by
  unfold addHandlerForEvent
  simp [hbad]

/-- Explicit success form of `addHandlerForEvent`. -/
theorem addHandlerForEvent_ok (st : EngineState) (ctx : ApplyCtx) (k : String) (h : HandlerId)
    (hgood : specThrows (parseSpec k) = false) :
    addHandlerForEvent st ctx k h = .ok
      ({ st with
          registry := aset st.registry ctx.target
            (aset ((registryOf st ctx.target).getD []) (parseSpec k).event
              (((aget ((registryOf st ctx.target).getD []) (parseSpec k).event).getD []) ++
                [mkWrapper st.nextId (parseSpec k) h])),
          listeners := aset st.listeners ctx.target
            (listenersOf st ctx.target ++ [mkWrapper st.nextId (parseSpec k) h]),
          nextId := st.nextId + 1 },
       { ctx with added := ctx.added || (registryOf st ctx.target).isNone }) := by
  unfold addHandlerForEvent
  simp [hgood]

/-- The binding produced by a wrapper built from a parsed entry. -/
theorem toBinding_mkWrapper (wid : Nat) (k : String) (h : HandlerId) :
    (mkWrapper wid (parseSpec k) h).toBinding = bindingOf (k, h) := rfl

/-- What a successful run of `applyEntries` does to the state: the target's
listener list and per-event registry arrays are extended, in order, by the
bindings of the processed entries; other nodes, and the fired trace, are
untouched; the `added` flag is raised iff the registry entry was absent and
at least one entry was processed. -/
theorem applyEntries_ok_spec :
    ∀ (entries : List (String × HandlerId)) (st : EngineState) (ctx : ApplyCtx)
      (st' : EngineState) (ctx' : ApplyCtx),
      applyEntries st ctx entries = (st', ctx', none) →
      ctx'.target = ctx.target ∧
      (∀ m, m ≠ ctx.target → listenersOf st' m = listenersOf st m ∧
        registryOf st' m = registryOf st m) ∧
      (listenersOf st' ctx.target).map Wrapper.toBinding =
        (listenersOf st ctx.target).map Wrapper.toBinding ++ entries.map bindingOf ∧
      (∀ ev, (registryArr st' ctx.target ev).map Wrapper.toBinding =
        (registryArr st ctx.target ev).map Wrapper.toBinding ++
          ((entries.filter (fun kh => (parseSpec kh.1).event == ev)).map bindingOf)) ∧
      st'.fired = st.fired ∧
      ctx'.added = (ctx.added || (!entries.isEmpty && (registryOf st ctx.target).isNone)) ∧
      (registryOf st' ctx.target).isNone = (entries.isEmpty && (registryOf st ctx.target).isNone) := by
  intro entries
  induction entries with
  | nil =>
    intro st ctx st' ctx' happ
    simp only [applyEntries, Prod.mk.injEq] at happ
    obtain ⟨h1, h2, -⟩ := happ
    subst h1
    subst h2
    simp
  | cons e rest ih =>
    intro st ctx st' ctx' happ
    obtain ⟨k, h⟩ := e
    cases hspec : specThrows (parseSpec k) with
    | true =>
      rw [applyEntries, addHandlerForEvent_err st ctx k h hspec] at happ
      simp at happ
    | false =>
      rw [applyEntries, addHandlerForEvent_ok st ctx k h hspec] at happ
      set w := mkWrapper st.nextId (parseSpec k) h with hw
      set st1 : EngineState :=
        { st with
          registry := aset st.registry ctx.target
            (aset ((registryOf st ctx.target).getD []) (parseSpec k).event
              (((aget ((registryOf st ctx.target).getD []) (parseSpec k).event).getD []) ++ [w])),
          listeners := aset st.listeners ctx.target (listenersOf st ctx.target ++ [w]),
          nextId := st.nextId + 1 } with hst1
      set ctx1 : ApplyCtx := { ctx with added := ctx.added || (registryOf st ctx.target).isNone }
        with hctx1
      have htgt1 : ctx1.target = ctx.target := rfl
      have hreg1self : registryOf st1 ctx.target =
          some (aset ((registryOf st ctx.target).getD []) (parseSpec k).event
            (((aget ((registryOf st ctx.target).getD []) (parseSpec k).event).getD []) ++ [w])) := by
        show aget (aset st.registry ctx.target _) ctx.target = _
        rw [aget_aset_self]
      have hlis1self : listenersOf st1 ctx.target = listenersOf st ctx.target ++ [w] := by
        show (aget (aset st.listeners ctx.target _) ctx.target).getD [] = _
        rw [aget_aset_self]
        rfl
      have hlis1ne : ∀ m, m ≠ ctx.target → listenersOf st1 m = listenersOf st m := by
        intro m hm
        show (aget (aset st.listeners ctx.target _) m).getD [] = _
        rw [aget_aset_ne _ _ _ _ hm]
        rfl
      have hreg1ne : ∀ m, m ≠ ctx.target → registryOf st1 m = registryOf st m := by
        intro m hm
        show aget (aset st.registry ctx.target _) m = _
        rw [aget_aset_ne _ _ _ _ hm]
        rfl
      have hregarr1 : ∀ ev, registryArr st1 ctx.target ev =
          if (parseSpec k).event = ev then registryArr st ctx.target ev ++ [w]
          else registryArr st ctx.target ev := by
        intro ev
        rw [registryArr, hreg1self]
        simp only [Option.getD_some]
        by_cases hev : (parseSpec k).event = ev
        · subst hev
          rw [aget_aset_self, if_pos rfl]
          rfl
        · rw [aget_aset_ne _ _ _ _ (fun hh => hev hh.symm), if_neg hev]
          rfl
      obtain ⟨i1, i2, i3, i4, i5, i6, i7⟩ := ih st1 ctx1 st' ctx' happ
      rw [htgt1] at i1 i2 i3 i4 i6 i7
      refine ⟨i1, ?_, ?_, ?_, i5, ?_, ?_⟩
      · intro m hm
        exact ⟨(i2 m hm).1.trans (hlis1ne m hm), (i2 m hm).2.trans (hreg1ne m hm)⟩
      · rw [i3, hlis1self]
        simp [hw, toBinding_mkWrapper]
      · intro ev
        rw [i4 ev, hregarr1 ev]
        by_cases hev : (parseSpec k).event = ev
        · rw [if_pos hev, List.filter_cons]
          simp only [hev, beq_self_eq_true, if_true]
          simp [hw, toBinding_mkWrapper]
        · rw [if_neg hev, List.filter_cons]
          have : (((parseSpec (k, h).1).event == ev) = false) := by
            simp [hev]
          simp only [this, Bool.false_eq_true, if_false]
      · rw [i6, hreg1self]
        simp only [hctx1]
        simp [Bool.or_assoc]
      · rw [i7, hreg1self]
        simp

/-! Helper lemmas: lifecycle dispatch and the apply-call. -/

theorem dispatchLifecycle_listeners (M : Node → String → Bool) (st : EngineState)
    (n m : Node) (ty : String) :
    listenersOf (dispatchLifecycle M st n ty) m = listenersOf st m := rfl

theorem dispatchLifecycle_registryOf (M : Node → String → Bool) (st : EngineState)
    (n m : Node) (ty : String) :
    registryOf (dispatchLifecycle M st n ty) m = registryOf st m := rfl

theorem dispatchLifecycle_registryArr (M : Node → String → Bool) (st : EngineState)
    (n m : Node) (ty ev : String) :
    registryArr (dispatchLifecycle M st n ty) m ev = registryArr st m ev := rfl

theorem dispatchLifecycle_fired (M : Node → String → Bool) (st : EngineState)
    (n : Node) (ty : String) :
    (dispatchLifecycle M st n ty).fired =
      st.fired ++ [(n, ty, lifecycleInvoked M st n ty)] := rfl

/-- Processing a list of entirely well-formed entries never throws. -/
theorem applyEntries_all_ok :
    ∀ (entries : List (String × HandlerId)) (st : EngineState) (ctx : ApplyCtx),
      (∀ kh ∈ entries, specThrows (parseSpec kh.1) = false) →
      (applyEntries st ctx entries).2.2 = none := by
  intro entries
  induction entries with
  | nil => intro st ctx _; rfl
  | cons e rest ih =>
    intro st ctx hgood
    obtain ⟨k, h⟩ := e
    rw [applyEntries, addHandlerForEvent_ok st ctx k h (hgood (k, h) (List.mem_cons_self _ _))]
    exact ih _ _ (fun kh hkh => hgood kh (List.mem_cons_of_mem _ hkh))

/-- Processing stops at the first throwing entry, returning the state built
from the well-formed entries before it. -/
theorem applyEntries_err_split :
    ∀ (pre : List (String × HandlerId)) (k : String) (h : HandlerId)
      (post : List (String × HandlerId)) (st : EngineState) (ctx : ApplyCtx),
      (∀ kh ∈ pre, specThrows (parseSpec kh.1) = false) →
      specThrows (parseSpec k) = true →
      applyEntries st ctx (pre ++ (k, h) :: post) =
        ((applyEntries st ctx pre).1, (applyEntries st ctx pre).2.1,
          some "amara:* events must not be delegated") := by
  intro pre
  induction pre with
  | nil =>
    intro k h post st ctx _ hbad
    rw [List.nil_append]
    rw [show applyEntries st ctx ((k, h) :: post) =
        (match addHandlerForEvent st ctx k h with
         | .error msg => (st, ctx, some msg)
         | .ok (st2, ctx2) => applyEntries st2 ctx2 post) from rfl]
    rw [addHandlerForEvent_err st ctx k h hbad]
    rfl
  | cons e rest ih =>
    intro k h post st ctx hgood hbad
    obtain ⟨k0, h0⟩ := e
    have hg0 : specThrows (parseSpec k0) = false := hgood (k0, h0) (List.mem_cons_self _ _)
    have hstep : ∀ tail, applyEntries st ctx ((k0, h0) :: tail) =
        (match addHandlerForEvent st ctx k0 h0 with
         | .error msg => (st, ctx, some msg)
         | .ok (st2, ctx2) => applyEntries st2 ctx2 tail) := fun tail => rfl
    rw [List.cons_append, hstep, hstep, addHandlerForEvent_ok st ctx k0 h0 hg0]
    exact ih k h post _ _ (fun kh hkh => hgood kh (List.mem_cons_of_mem _ hkh)) hbad

/-- The dispatch trace with the invoked-handler component dropped: which
lifecycle events were fired, on which node, in order. -/
def firedEvents (st : EngineState) : List (Node × String) :=
  st.fired.map (fun f => (f.1, f.2.1))

theorem clearTargetBindings_isNone (st : EngineState) (n : Node) :
    (registryOf (clearTargetBindings st n) n).isNone = (registryOf st n).isNone := by
  rw [clearTargetBindings_registryOf_self]
  cases hreg : registryOf st n <;> simp [hreg]

/-- The processing of spec entries alone never dispatches anything, even
when it throws. -/
theorem applyEntries_fired :
    ∀ (entries : List (String × HandlerId)) (st : EngineState) (ctx : ApplyCtx),
      ((applyEntries st ctx entries).1).fired = st.fired := by
  intro entries
  induction entries with
  | nil => intro st ctx; rfl
  | cons e rest ih =>
    intro st ctx
    obtain ⟨k, h⟩ := e
    cases hspec : specThrows (parseSpec k) with
    | true =>
      rw [applyEntries, addHandlerForEvent_err st ctx k h hspec]
    | false =>
      rw [applyEntries, addHandlerForEvent_ok st ctx k h hspec]
      exact ih _ _

theorem firedEvents_dispatchLifecycle (M : Node → String → Bool) (st : EngineState)
    (n : Node) (ty : String) :
    firedEvents (dispatchLifecycle M st n ty) = firedEvents st ++ [(n, ty)] := by
  simp [firedEvents, dispatchLifecycle]

/-- Unfolding equation for `applyEventsToTarget` given the result of its
entry-processing phase. -/
theorem applyEventsToTarget_eq (M : Node → String → Bool) (st : EngineState)
    (maps : List EventMap) (target : Node) (st1 : EngineState) (ctx1 : ApplyCtx)
    (err : Option String)
    (happ : applyEntries (clearTargetBindings st target) { target := target, added := false }
      maps.flatten = (st1, ctx1, err)) :
    applyEventsToTarget M st maps target =
      match err with
      | some msg => (st1, some msg)
      | none =>
        (dispatchLifecycle M
          (if ctx1.added then dispatchLifecycle M st1 target "amara:add" else st1)
          target "amara:apply", none) := by
  unfold applyEventsToTarget
  simp only []
  simp only [happ]
  cases err <;> rfl

/-- Complete characterization of which lifecycle events one apply-call
fires: nothing when the call throws; otherwise `amara:add` exactly when
the registry entry was absent at call start and the call supplies at
least one spec entry, followed in either case by `amara:apply`. -/
theorem applyEventsToTarget_firedEvents (M : Node → String → Bool) (st : EngineState)
    (maps : List EventMap) (target : Node) :
    firedEvents (applyEventsToTarget M st maps target).1 =
      firedEvents st ++
        (if ((applyEventsToTarget M st maps target).2).isNone then
          (if (registryOf st target).isNone && !maps.flatten.isEmpty
            then [(target, "amara:add")] else []) ++ [(target, "amara:apply")]
        else []) := by
  rcases happ : applyEntries (clearTargetBindings st target) { target := target, added := false }
      maps.flatten with ⟨st1, ctx1, err⟩
  have hfired1 : st1.fired = st.fired := by
    have := applyEntries_fired maps.flatten (clearTargetBindings st target)
      { target := target, added := false }
    rw [happ] at this
    rw [this, clearTargetBindings_fired]
  cases err with
  | some msg =>
    have hres : applyEventsToTarget M st maps target = (st1, some msg) :=
      applyEventsToTarget_eq M st maps target st1 ctx1 (some msg) happ
    rw [hres]
    simp [firedEvents, hfired1]
  | none =>
    obtain ⟨-, -, -, -, -, i6, -⟩ := applyEntries_ok_spec maps.flatten
      (clearTargetBindings st target) { target := target, added := false } st1 ctx1 happ
    have hadded : ctx1.added = ((registryOf st target).isNone && !maps.flatten.isEmpty) := by
      rw [i6]
      show (false || _) = _
      rw [Bool.false_or, clearTargetBindings_isNone, Bool.and_comm]
    have hres : applyEventsToTarget M st maps target =
        (dispatchLifecycle M (if ctx1.added then dispatchLifecycle M st1 target "amara:add" else st1)
          target "amara:apply", none) :=
      applyEventsToTarget_eq M st maps target st1 ctx1 none happ
    rw [hres]
    simp only [Option.isNone_some, Option.isNone_none, if_true]
    cases hcase : (registryOf st target).isNone && !maps.flatten.isEmpty with
    | true =>
      rw [hcase] at hadded
      rw [hadded]
      simp only [if_true]
      rw [firedEvents_dispatchLifecycle, firedEvents_dispatchLifecycle]
      simp [firedEvents, hfired1]
    | false =>
      rw [hcase] at hadded
      rw [hadded]
      simp only [Bool.false_eq_true, if_false]
      rw [firedEvents_dispatchLifecycle]
      simp [firedEvents, hfired1]

theorem registryArr_congr (st st' : EngineState) (n : Node) (ev : String)
    (h : registryOf st' n = registryOf st n) : registryArr st' n ev = registryArr st n ev := by
  rw [registryArr, registryArr, h]

/-- With the invariant, every listener of a node with registry entry `m`
is detached by the detach fold over `m`. -/
theorem filter_survivesMap_nil (st : EngineState) (n : Node)
    (m : List (String × List Wrapper)) (hInv : Inv st) (hreg : registryOf st n = some m) :
    (listenersOf st n).filter (survivesMap m) = [] := by
  refine List.filter_eq_nil_iff.mpr (fun w hw => ?_)
  have hmem := hInv n w hw
  rw [registryArr, hreg] at hmem
  simp only [Option.getD_some] at hmem
  cases harr : aget m w.event with
  | none =>
    rw [harr] at hmem
    simp at hmem
  | some arr =>
    rw [harr] at hmem
    simp only [Option.getD_some] at hmem
    simp [survivesMap_false m w arr harr hmem]

/-- What a successful apply-call does to the engine state: the target's
listener list holds exactly the new bindings in order, its registry holds
exactly the new bindings grouped by event type, and every other node is
untouched. -/
theorem applyEventsToTarget_ok_state (M : Node → String → Bool) (st : EngineState)
    (maps : List EventMap) (target : Node) (hInv : Inv st)
    (hok : (applyEventsToTarget M st maps target).2 = none) :
    (listenersOf (applyEventsToTarget M st maps target).1 target).map Wrapper.toBinding =
      maps.flatten.map bindingOf ∧
    (∀ ev, (registryArr (applyEventsToTarget M st maps target).1 target ev).map Wrapper.toBinding =
      (maps.flatten.filter (fun kh => (parseSpec kh.1).event == ev)).map bindingOf) ∧
    (∀ m, m ≠ target → listenersOf (applyEventsToTarget M st maps target).1 m = listenersOf st m ∧
      registryOf (applyEventsToTarget M st maps target).1 m = registryOf st m) := by
  rcases happ : applyEntries (clearTargetBindings st target) { target := target, added := false }
      maps.flatten with ⟨st1, ctx1, err⟩
  have heq := applyEventsToTarget_eq M st maps target st1 ctx1 err happ
  cases err with
  | some msg =>
    rw [heq] at hok
    simp at hok
  | none =>
    obtain ⟨-, i2, i3, i4, -, -, -⟩ := applyEntries_ok_spec maps.flatten
      (clearTargetBindings st target) { target := target, added := false } st1 ctx1 happ
    have hfin : ∀ m, listenersOf (applyEventsToTarget M st maps target).1 m = listenersOf st1 m := by
      intro m
      rw [heq]
      cases hb : ctx1.added <;> simp [hb] <;> rfl
    have hfinr : ∀ m, registryOf (applyEventsToTarget M st maps target).1 m = registryOf st1 m := by
      intro m
      rw [heq]
      cases hb : ctx1.added <;> simp [hb] <;> rfl
    refine ⟨?_, ?_, ?_⟩
    · rw [hfin, i3, clearTargetBindings_listeners_self st target hInv]
      rfl
    · intro ev
      rw [registryArr_congr st1 _ target ev (hfinr target), i4 ev,
        clearTargetBindings_registry_self st target ev]
      rfl
    · intro m hm
      refine ⟨?_, ?_⟩
      · rw [hfin, (i2 m hm).1, clearTargetBindings_listeners_ne st target m hm]
      · rw [hfinr, (i2 m hm).2, clearTargetBindings_registryOf_ne st target m hm]

/-! Invariant preservation. -/

theorem inv_init : Inv init := by
  intro n w hw
  simp [listenersOf, aget, init] at hw

theorem inv_dispatchLifecycle (M : Node → String → Bool) (st : EngineState) (n : Node)
    (ty : String) (h : Inv st) : Inv (dispatchLifecycle M st n ty) := h

theorem inv_clearTargetBindings (st : EngineState) (n : Node) (h : Inv st) :
    Inv (clearTargetBindings st n) := by
  intro n' w hw
  by_cases hn : n' = n
  · subst hn
    rw [clearTargetBindings_listeners_self st n' h] at hw
    simp at hw
  · rw [clearTargetBindings_listeners_ne st n n' hn] at hw
    rw [registryArr_congr st _ n' w.event (clearTargetBindings_registryOf_ne st n n' hn)]
    exact h n' w hw

theorem inv_addHandlerForEvent (st : EngineState) (ctx : ApplyCtx) (k : String)
    (h : HandlerId) (st' : EngineState) (ctx' : ApplyCtx)
    (hok : addHandlerForEvent st ctx k h = .ok (st', ctx')) (hInv : Inv st) : Inv st' := by
  cases hspec : specThrows (parseSpec k) with
  | true =>
    rw [addHandlerForEvent_err st ctx k h hspec] at hok
    simp at hok
  | false =>
    rw [addHandlerForEvent_ok st ctx k h hspec] at hok
    simp only [Except.ok.injEq, Prod.mk.injEq] at hok
    obtain ⟨hst, -⟩ := hok
    subst hst
    set w := mkWrapper st.nextId (parseSpec k) h with hw
    set st1 : EngineState :=
      { st with
        registry := aset st.registry ctx.target
          (aset ((registryOf st ctx.target).getD []) (parseSpec k).event
            (((aget ((registryOf st ctx.target).getD []) (parseSpec k).event).getD []) ++ [w])),
        listeners := aset st.listeners ctx.target (listenersOf st ctx.target ++ [w]),
        nextId := st.nextId + 1 } with hst1
    have hlis1self : listenersOf st1 ctx.target = listenersOf st ctx.target ++ [w] := by
      show (aget (aset st.listeners ctx.target _) ctx.target).getD [] = _
      rw [aget_aset_self]
      rfl
    have hlis1ne : ∀ m, m ≠ ctx.target → listenersOf st1 m = listenersOf st m := by
      intro m hm
      show (aget (aset st.listeners ctx.target _) m).getD [] = _
      rw [aget_aset_ne _ _ _ _ hm]
      rfl
    have hreg1ne : ∀ m, m ≠ ctx.target → registryOf st1 m = registryOf st m := by
      intro m hm
      show aget (aset st.registry ctx.target _) m = _
      rw [aget_aset_ne _ _ _ _ hm]
      rfl
    have hregarr1 : ∀ ev, registryArr st1 ctx.target ev =
        if (parseSpec k).event = ev then registryArr st ctx.target ev ++ [w]
        else registryArr st ctx.target ev := by
      intro ev
      rw [registryArr]
      show (aget ((aget (aset st.registry ctx.target _) ctx.target).getD []) ev).getD [] = _
      rw [aget_aset_self]
      simp only [Option.getD_some]
      by_cases hev : (parseSpec k).event = ev
      · subst hev
        rw [aget_aset_self, if_pos rfl]
        rfl
      · rw [aget_aset_ne _ _ _ _ (fun hh => hev hh.symm), if_neg hev]
        rfl
    intro n' w' hw'
    by_cases hn : n' = ctx.target
    · subst hn
      rw [hlis1self] at hw'
      rw [hregarr1]
      rcases List.mem_append.mp hw' with hold | hnew
      · have := hInv ctx.target w' hold
        by_cases hev : (parseSpec k).event = w'.event
        · rw [if_pos hev]
          exact List.mem_append_left _ this
        · rw [if_neg hev]
          exact this
      · have hww : w' = w := List.mem_singleton.mp hnew
        subst hww
        rw [if_pos (show (parseSpec k).event = w.event from rfl)]
        exact List.mem_append_right _ (List.mem_singleton.mpr rfl)
    · rw [hlis1ne n' hn] at hw'
      rw [registryArr_congr st _ n' w'.event (hreg1ne n' hn)]
      exact hInv n' w' hw'

theorem inv_applyEntries :
    ∀ (entries : List (String × HandlerId)) (st : EngineState) (ctx : ApplyCtx),
      Inv st → Inv (applyEntries st ctx entries).1 := by
  intro entries
  induction entries with
  | nil => intro st ctx h; exact h
  | cons e rest ih =>
    intro st ctx h
    obtain ⟨k, hd⟩ := e
    cases hspec : specThrows (parseSpec k) with
    | true =>
      rw [applyEntries, addHandlerForEvent_err st ctx k hd hspec]
      exact h
    | false =>
      rw [applyEntries, addHandlerForEvent_ok st ctx k hd hspec]
      exact ih _ _ (inv_addHandlerForEvent st ctx k hd _ _
        (addHandlerForEvent_ok st ctx k hd hspec) h)

theorem inv_applyEventsToTarget (M : Node → String → Bool) (st : EngineState)
    (maps : List EventMap) (target : Node) (h : Inv st) :
    Inv (applyEventsToTarget M st maps target).1 := by
  rcases happ : applyEntries (clearTargetBindings st target) { target := target, added := false }
      maps.flatten with ⟨st1, ctx1, err⟩
  have hinv1 : Inv st1 := by
    have := inv_applyEntries maps.flatten (clearTargetBindings st target)
      { target := target, added := false } (inv_clearTargetBindings st target h)
    rw [happ] at this
    exact this
  rw [applyEventsToTarget_eq M st maps target st1 ctx1 err happ]
  cases err with
  | some msg => exact hinv1
  | none =>
    cases hb : ctx1.added
    · simp only [hb, Bool.false_eq_true, if_false]
      exact inv_dispatchLifecycle _ _ _ _ hinv1
    · simp only [hb, if_true]
      exact inv_dispatchLifecycle _ _ _ _ (inv_dispatchLifecycle _ _ _ _ hinv1)

theorem removeTargetHandlers_eq_none (M : Node → String → Bool) (st : EngineState) (n : Node)
    (hreg : registryOf st n = none) : removeTargetHandlers M st n = st := by
  unfold removeTargetHandlers
  rw [hreg]

theorem removeTargetHandlers_eq_some (M : Node → String → Bool) (st : EngineState) (n : Node)
    (m : List (String × List Wrapper)) (hreg : registryOf st n = some m) :
    removeTargetHandlers M st n =
      m.foldl (fun st entry => removeListenersOfEntry st n entry)
        { (dispatchLifecycle M st n "amara:remove") with
          registry := adel (dispatchLifecycle M st n "amara:remove").registry n } := by
  unfold removeTargetHandlers
  rw [hreg]

/-- What `removeTargetHandlers` does when the target has a registry entry:
`amara:remove` is dispatched first, with the invoked handlers computed on
the pre-removal state (listeners still attached), then the entry is
deleted and every listener detached; other nodes are untouched. -/
theorem removeTargetHandlers_some_spec (M : Node → String → Bool) (st : EngineState)
    (n : Node) (m : List (String × List Wrapper)) (hreg : registryOf st n = some m)
    (hInv : Inv st) :
    (removeTargetHandlers M st n).fired =
      st.fired ++ [(n, "amara:remove", lifecycleInvoked M st n "amara:remove")] ∧
    registryOf (removeTargetHandlers M st n) n = none ∧
    listenersOf (removeTargetHandlers M st n) n = [] ∧
    (∀ m', m' ≠ n → listenersOf (removeTargetHandlers M st n) m' = listenersOf st m' ∧
      registryOf (removeTargetHandlers M st n) m' = registryOf st m') := by
  rw [removeTargetHandlers_eq_some M st n m hreg]
  set st3 : EngineState :=
    { (dispatchLifecycle M st n "amara:remove") with
      registry := adel (dispatchLifecycle M st n "amara:remove").registry n } with hst3
  have hfields := fold_removeEntries_fields m n st3
  refine ⟨?_, ?_, ?_, ?_⟩
  · rw [hfields.2.1]
    rfl
  · show aget (m.foldl (fun st entry => removeListenersOfEntry st n entry) st3).registry n = none
    rw [hfields.1]
    exact aget_adel_self _ _
  · rw [fold_removeEntries_self]
    have hl3 : listenersOf st3 n = listenersOf st n := rfl
    rw [hl3]
    exact filter_survivesMap_nil st n m hInv hreg
  · intro m' hm'
    refine ⟨?_, ?_⟩
    · rw [fold_removeEntries_other _ _ _ hm']
      rfl
    · show aget (m.foldl (fun st entry => removeListenersOfEntry st n entry) st3).registry m' = _
      rw [hfields.1]
      exact aget_adel_ne _ _ _ hm'

theorem inv_removeTargetHandlers (M : Node → String → Bool) (st : EngineState) (n : Node)
    (h : Inv st) : Inv (removeTargetHandlers M st n) := by
  cases hreg : registryOf st n with
  | none =>
    rw [removeTargetHandlers_eq_none M st n hreg]
    exact h
  | some m =>
    obtain ⟨-, -, h3, h4⟩ := removeTargetHandlers_some_spec M st n m hreg h
    intro n' w hw
    by_cases hn : n' = n
    · subst hn
      rw [h3] at hw
      simp at hw
    · rw [(h4 n' hn).1] at hw
      rw [registryArr_congr st _ n' w.event (h4 n' hn).2]
      exact h n' w hw

theorem inv_applyPairs :
    ∀ (pairs : List (List EventMap × Node)) (M : Node → String → Bool) (st : EngineState),
      Inv st → Inv (applyPairs M st pairs).1 := by
  intro pairs
  induction pairs with
  | nil => intro M st h; exact h
  | cons p rest ih =>
    intro M st h
    obtain ⟨maps, n⟩ := p
    have h1 := inv_applyEventsToTarget M st maps n h
    rw [applyPairs]
    rcases hres : applyEventsToTarget M st maps n with ⟨st1, err⟩
    rw [hres] at h1
    cases err with
    | some msg => exact h1
    | none => exact ih M st1 h1

theorem inv_step (M : Node → String → Bool) (st : EngineState) (a : HostAction)
    (h : Inv st) : Inv (step M st a).1 := by
  cases a with
  | applyTargetResults pairs => exact inv_applyPairs pairs M st h
  | targetsRemoved ns =>
    show Inv (ns.foldl (fun s n => removeTargetHandlers M s n) st)
    induction ns generalizing st with
    | nil => exact h
    | cons n rest ih => exact ih _ (inv_removeTargetHandlers M st n h)

theorem inv_run (M : Node → String → Bool) (acts : List HostAction) : Inv (run M acts) := by
  rw [run]
  have hgen : ∀ (l : List HostAction) (st : EngineState), Inv st →
      Inv (l.foldl (fun st a => (step M st a).1) st) := by
    intro l
    induction l with
    | nil => intro st h; exact h
    | cons a rest ih => intro st h; exact ih _ (inv_step M st a h)
  exact hgen acts init inv_init

/-- A fired native event invokes handlers according only to the observable
content of the attached listeners. -/
theorem fireEvent_eq_bindings (M : Node → String → Bool) (st : EngineState) (e : Ev)
    (n : Node) :
    fireEvent M st e n =
      ((listenersOf st n).map Wrapper.toBinding).filterMap
        (fun b => if b.event == e.type && bindingFires M b e then some b.handler else none) := by
  rw [fireEvent]
  induction listenersOf st n with
  | nil => rfl
  | cons w ws ih =>
    rw [List.map_cons, List.filterMap_cons, List.filter_cons]
    cases hc : w.event == e.type && wrapperFires M w e with
    | true =>
      have hc' : (w.toBinding.event == e.type && bindingFires M w.toBinding e) = true := hc
      rw [hc']
      simp only [if_true]
      rw [List.map_cons, ih]
      rfl
    | false =>
      have hc' : (w.toBinding.event == e.type && bindingFires M w.toBinding e) = false := hc
      rw [hc']
      simp only [Bool.false_eq_true, if_false]
      exact ih

/-! Claim theorems. -/

/-- Matching oracle under which no selector matches any node. -/
def oracleFalse : Node → String → Bool := fun _ _ => false

/-- The handlers the specification predicts for one fired event of type
`e.type` after an apply-call with maps `[M1, M2, ...]`: across the maps in
array order and each map's keys in iteration order, every entry whose
parsed event type equals the fired type and that is not filtered out
(no declared selector excludes the originating target, no declared meta
token excludes the live comparison value). -/
def specInvoked (M : Node → String → Bool) (maps : List EventMap) (e : Ev) : List HandlerId :=
  maps.flatten.filterMap (fun kh =>
    let p := parseSpec kh.1
    if p.event == e.type &&
        ((p.delegates.isEmpty || p.delegates.any (fun s => M e.target s)) &&
         (p.meta.isEmpty || p.meta.contains (toLowerStr (metaValue e))))
    then some kh.2 else none)

/-- C1: for every target and every apply-call supplying handler maps
`[M1, M2, ...]` (performed in any reachable engine state), firing a DOM
event of type T on the target invokes exactly the non-filtered handlers
registered for T, in registration order — all of M1's handlers for T in
key order, then M2's, and so on — and no handler registered for a
different event type. -/
theorem C1_apply_fire_order (M : Node → String → Bool) (acts : List HostAction)
    (maps : List EventMap) (target : Node) (e : Ev)
    (hok : (applyEventsToTarget M (run M acts) maps target).2 = none) :
    fireEvent M (applyEventsToTarget M (run M acts) maps target).1 e target =
      specInvoked M maps e := by
  obtain ⟨h1, -, -⟩ :=
    applyEventsToTarget_ok_state M (run M acts) maps target (inv_run M acts) hok
  rw [fireEvent_eq_bindings, h1, specInvoked, List.filterMap_map]
  rfl

/-- C1 witness: a concrete apply-call with two maps and a fired click. -/
theorem C1_apply_fire_order_witness :
    fireEvent oracleFalse
        (applyEventsToTarget oracleFalse (run oracleFalse [])
          [[("click", 10)], [("click", 11), ("keydown.enter", 12)]] 5).1
        { type := "click", target := 5, key := "", button := 0 } 5 =
      specInvoked oracleFalse [[("click", 10)], [("click", 11), ("keydown.enter", 12)]]
        { type := "click", target := 5, key := "", button := 0 } :=
  C1_apply_fire_order oracleFalse [] [[("click", 10)], [("click", 11), ("keydown.enter", 12)]]
    5 { type := "click", target := 5, key := "", button := 0 } (by decide)

/-- C2: each apply-call for a target (in any reachable state) fully
replaces the target's bindings: afterwards the registry holds, per event
type, exactly the bindings of this call in order, the attached listeners
are exactly this call's bindings, and no handler outside this call's maps
can be invoked by any further event fired on the target. -/
theorem C2_apply_replaces_bindings (M : Node → String → Bool) (acts : List HostAction)
    (maps : List EventMap) (target : Node)
    (hok : (applyEventsToTarget M (run M acts) maps target).2 = none) :
    (∀ ev, (registryArr (applyEventsToTarget M (run M acts) maps target).1 target ev).map
        Wrapper.toBinding =
      (maps.flatten.filter (fun kh => (parseSpec kh.1).event == ev)).map bindingOf) ∧
    (listenersOf (applyEventsToTarget M (run M acts) maps target).1 target).map
        Wrapper.toBinding = maps.flatten.map bindingOf ∧
    (∀ (e : Ev) (h : HandlerId),
      h ∈ fireEvent M (applyEventsToTarget M (run M acts) maps target).1 e target →
      h ∈ maps.flatten.map (fun kh => kh.2)) := by
  obtain ⟨h1, h2, -⟩ :=
    applyEventsToTarget_ok_state M (run M acts) maps target (inv_run M acts) hok
  refine ⟨h2, h1, ?_⟩
  intro e h hmem
  rw [fireEvent_eq_bindings, h1] at hmem
  obtain ⟨b, hb, hcond⟩ := List.mem_filterMap.mp hmem
  obtain ⟨kh, hkh, hbeq⟩ := List.mem_map.mp hb
  by_cases hc : (b.event == e.type && bindingFires M b e) = true
  · rw [if_pos hc] at hcond
    have hh : b.handler = h := Option.some.inj hcond
    refine List.mem_map.mpr ⟨kh, hkh, ?_⟩
    rw [← hh, ← hbeq]
    rfl
  · rw [if_neg hc] at hcond
    exact absurd hcond (by simp)

/-- C2 witness: re-applying a target replaces a click binding. -/
theorem C2_apply_replaces_bindings_witness :
    (listenersOf (applyEventsToTarget oracleFalse
        (run oracleFalse [HostAction.applyTargetResults [([[("click", 10)]], 5)]])
        [[("click", 11)]] 5).1 5).map Wrapper.toBinding =
      ([[("click", 11)]] : List EventMap).flatten.map bindingOf :=
  (C2_apply_replaces_bindings oracleFalse [HostAction.applyTargetResults [([[("click", 10)]], 5)]]
    [[("click", 11)]] 5 (by decide)).2.1

/-- Host-action sequence refuting C3 as stated: a target is applied,
reported removed, and applied again. -/
def removeReapplyActs : List HostAction :=
  [HostAction.applyTargetResults [([[("click", 0)]], 0)],
   HostAction.targetsRemoved [0],
   HostAction.applyTargetResults [([[("click", 0)]], 0)]]

/-- C3 counterexample: over the host-action sequence apply, remove,
re-apply for one target, the engine dispatches `amara:add` on that target
twice, not exactly once — deleting the registry entry on removal makes the
next apply-call recreate it and refire `amara:add`. -/
theorem C3_add_refires_counterexample :
    ((run oracleFalse removeReapplyActs).fired.filter
        (fun f => f.1 == 0 && f.2.1 == "amara:add")).length = 2 := by
  decide

/-- C3 (amended): in every apply-call, `amara:add` fires iff the call
completes without throwing, the target had no registry entry when the call
started, and the call supplies at least one spec entry; when it fires, it
fires before that call's `amara:apply`.  `amara:apply` fires exactly once
per non-throwing apply-call, including the first; a throwing call fires
neither.  In particular an apply-call that finds the entry present never
refires `amara:add`, but after a removal deletes the entry, the next
apply-call fires it again. -/
theorem C3_lifecycle_per_apply_call (M : Node → String → Bool) (st : EngineState)
    (maps : List EventMap) (target : Node) :
    firedEvents (applyEventsToTarget M st maps target).1 =
      firedEvents st ++
        (if ((applyEventsToTarget M st maps target).2).isNone then
          (if (registryOf st target).isNone && !maps.flatten.isEmpty
            then [(target, "amara:add")] else []) ++ [(target, "amara:apply")]
        else []) :=
  applyEventsToTarget_firedEvents M st maps target

/-- C4: when the host reports a target removed, `amara:remove` is
dispatched exactly once if the target has a registry entry and never
otherwise; the dispatch happens with the handlers still attached (the
invoked handlers are those attached before removal), and afterwards the
registry entry is gone, all listeners are detached, and no further event
fired on the node invokes any handler. -/
theorem C4_remove_fires_once (M : Node → String → Bool) (acts : List HostAction) (n : Node) :
    ((registryOf (run M acts) n).isSome →
      (step M (run M acts) (.targetsRemoved [n])).1.fired =
        (run M acts).fired ++
          [(n, "amara:remove", lifecycleInvoked M (run M acts) n "amara:remove")] ∧
      registryOf (step M (run M acts) (.targetsRemoved [n])).1 n = none ∧
      listenersOf (step M (run M acts) (.targetsRemoved [n])).1 n = [] ∧
      (∀ e : Ev, fireEvent M (step M (run M acts) (.targetsRemoved [n])).1 e n = [])) ∧
    ((registryOf (run M acts) n).isNone →
      (step M (run M acts) (.targetsRemoved [n])).1 = run M acts) := by
  have hstep : (step M (run M acts) (.targetsRemoved [n])).1 =
      removeTargetHandlers M (run M acts) n := rfl
  constructor
  · intro hsome
    obtain ⟨m, hm⟩ := Option.isSome_iff_exists.mp hsome
    obtain ⟨r1, r2, r3, -⟩ :=
      removeTargetHandlers_some_spec M (run M acts) n m hm (inv_run M acts)
    rw [hstep]
    refine ⟨r1, r2, r3, ?_⟩
    intro e
    rw [fireEvent, r3]
    rfl
  · intro hnone
    rw [hstep, removeTargetHandlers_eq_none M (run M acts) n (Option.isNone_iff_eq_none.mp hnone)]

/-- C4 witness: removing a target that has an `amara:remove` handler bound. -/
theorem C4_remove_fires_once_witness :
    registryOf (step oracleFalse
        (run oracleFalse [HostAction.applyTargetResults [([[("amara:remove", 7)]], 3)]])
        (.targetsRemoved [3])).1 3 = none ∧
    listenersOf (step oracleFalse
        (run oracleFalse [HostAction.applyTargetResults [([[("amara:remove", 7)]], 3)]])
        (.targetsRemoved [3])).1 3 = [] ∧
    (step oracleFalse
        (run oracleFalse [HostAction.applyTargetResults [([[("amara:remove", 7)]], 3)]])
        (.targetsRemoved [3])).1.fired =
      (run oracleFalse [HostAction.applyTargetResults [([[("amara:remove", 7)]], 3)]]).fired ++
        [(3, "amara:remove",
          lifecycleInvoked oracleFalse
            (run oracleFalse [HostAction.applyTargetResults [([[("amara:remove", 7)]], 3)]])
            3 "amara:remove")] := by
  have h := (C4_remove_fires_once oracleFalse
    [HostAction.applyTargetResults [([[("amara:remove", 7)]], 3)]] 3).1 (by decide)
  exact ⟨h.2.1, h.2.2.1, h.1⟩

/-- C5: the meta filter of a bound handler.  With zero declared tokens the
handler fires for any comparison value.  With one or more tokens (each
lower-cased and canonicalized through the friendly-name table
space to " ", left to "0", middle to "1", wheel to "1", right to "2"),
the handler fires iff the live comparison value — the `key` field for
keydown/keyup/keypress events, the `button` field for mousedown/mouseup
events — stringified, lower-cased and fixed up (del to delete, the result
still lower case) equals at least one declared token. -/
theorem C5_meta_filter (k : String) (e : Ev) :
    ((parseSpec k).meta = [] → metaPass (parseSpec k).meta e = true) ∧
    ((e.type = "keydown" ∨ e.type = "keyup" ∨ e.type = "keypress") →
      metaPass (parseSpec k).meta e =
        ((parseSpec k).meta.isEmpty ||
          (parseSpec k).meta.contains (fixMeta (toLowerStr e.key)))) ∧
    ((e.type = "mousedown" ∨ e.type = "mouseup") →
      metaPass (parseSpec k).meta e =
        ((parseSpec k).meta.isEmpty ||
          (parseSpec k).meta.contains (fixMeta (toLowerStr (toString e.button))))) ∧
    (asMeta "space" = " " ∧ asMeta "left" = "0" ∧ asMeta "middle" = "1" ∧
      asMeta "wheel" = "1" ∧ asMeta "right" = "2") := by
  refine ⟨?_, ?_, ?_, by decide⟩
  · intro hm
    rw [metaPass, hm]
    rfl
  · intro hty
    rw [metaPass, metaValue]
    have hfield : eventFieldString e = e.key := by
      rcases hty with hty | hty | hty <;> (rw [eventFieldString, hty]; rfl)
    rw [hfield, toLowerStr_fixMeta_toLowerStr]
  · intro hty
    rw [metaPass, metaValue]
    have hfield : eventFieldString e = toString e.button := by
      rcases hty with hty | hty <;> (rw [eventFieldString, hty]; rfl)
    rw [hfield, toLowerStr_fixMeta_toLowerStr]

/-- C5 witness: `keydown.enter.space` fires for a live key "ENTER". -/
theorem C5_meta_filter_witness :
    metaPass (parseSpec "keydown.enter.space").meta
        { type := "keydown", target := 0, key := "ENTER", button := 0 } =
      ((parseSpec "keydown.enter.space").meta.isEmpty ||
        (parseSpec "keydown.enter.space").meta.contains (fixMeta (toLowerStr "ENTER"))) ∧
    metaPass (parseSpec "mousedown.right").meta
        { type := "mousedown", target := 0, key := "", button := 2 } =
      ((parseSpec "mousedown.right").meta.isEmpty ||
        (parseSpec "mousedown.right").meta.contains (fixMeta (toLowerStr (toString (2 : Nat))))) :=
  ⟨(C5_meta_filter "keydown.enter.space"
      { type := "keydown", target := 0, key := "ENTER", button := 0 }).2.1 (Or.inl rfl),
   (C5_meta_filter "mousedown.right"
      { type := "mousedown", target := 0, key := "", button := 2 }).2.2.1 (Or.inl rfl)⟩

/-- C6: the delegation filter of a bound handler.  After binding a single
spec entry on a node, an event of the registered type whose meta filter
passes invokes the handler iff the entry declared no selectors, or some
declared selector matches the event's originating target (`e.target`) —
the node the listener is attached to plays no role in the decision, so an
event that merely bubbles through a matching element without originating
on one does not fire the handler. -/
theorem C6_delegation_filter (M : Node → String → Bool) (k : String) (h : HandlerId)
    (n : Node) (e : Ev)
    (hok : (applyEventsToTarget M init [[(k, h)]] n).2 = none)
    (hty : (parseSpec k).event = e.type)
    (hmeta : metaPass (parseSpec k).meta e = true) :
    fireEvent M (applyEventsToTarget M init [[(k, h)]] n).1 e n =
      (if (parseSpec k).delegates = [] ∨ ∃ s ∈ (parseSpec k).delegates, M e.target s
        then [h] else []) ∧
    delegatesPass M (parseSpec k).delegates e =
      ((parseSpec k).delegates.isEmpty ||
        (parseSpec k).delegates.any (fun s => M e.target s)) := by
  refine ⟨?_, rfl⟩
  obtain ⟨h1, -, -⟩ := applyEventsToTarget_ok_state M init [[(k, h)]] n inv_init hok
  rw [fireEvent_eq_bindings, h1]
  show List.filterMap _ [bindingOf (k, h)] = _
  rw [List.filterMap_cons]
  have hbev : (bindingOf (k, h)).event = e.type := hty
  have hbfire : bindingFires M (bindingOf (k, h)) e =
      delegatesPass M (parseSpec k).delegates e := by
    have hunf : bindingFires M (bindingOf (k, h)) e =
        (delegatesPass M (parseSpec k).delegates e && metaPass (parseSpec k).meta e) := rfl
    rw [hunf, hmeta, Bool.and_true]
  have hiff : delegatesPass M (parseSpec k).delegates e = true ↔
      ((parseSpec k).delegates = [] ∨ ∃ s ∈ (parseSpec k).delegates, M e.target s) := by
    simp [delegatesPass, List.isEmpty_iff, List.any_eq_true]
  cases hd : delegatesPass M (parseSpec k).delegates e with
  | true =>
    rw [if_pos (hiff.mp hd)]
    have hcond : ((bindingOf (k, h)).event == e.type && bindingFires M (bindingOf (k, h)) e)
        = true := by
      rw [hbev, hbfire, hd]
      simp
    rw [hcond]
    rfl
  | false =>
    have hnp : ¬((parseSpec k).delegates = [] ∨ ∃ s ∈ (parseSpec k).delegates, M e.target s) := by
      intro hp
      rw [hiff.mpr hp] at hd
      simp at hd
    rw [if_neg hnp]
    have hcond : ((bindingOf (k, h)).event == e.type && bindingFires M (bindingOf (k, h)) e)
        = false := by
      rw [hbev, hbfire, hd]
      simp
    rw [hcond]
    rfl

/-- Matching oracle for the C6 witness: only node 7 matches "div.active". -/
def oracleDivActive : Node → String → Bool := fun n s => n == 7 && s == "div.active"

/-- C6 witness: a handler delegated as "click div.active" bound on node 1
fires for a click originating on matching node 7, even though node 1
itself (the bubble target) does not match. -/
theorem C6_delegation_filter_witness :
    fireEvent oracleDivActive
        (applyEventsToTarget oracleDivActive init [[("click div.active", 5)]] 1).1
        { type := "click", target := 7, key := "", button := 0 } 1 =
      (if (parseSpec "click div.active").delegates = [] ∨
          ∃ s ∈ (parseSpec "click div.active").delegates,
            oracleDivActive ({ type := "click", target := 7, key := "", button := 0 } : Ev).target s
        then [5] else []) :=
  (C6_delegation_filter oracleDivActive "click div.active" 5 1
    { type := "click", target := 7, key := "", button := 0 }
    (by decide) (by decide) (by decide)).1

/-- Handler environment for the C7 failing input: the target has one
handler bound for event type "foo" whose body does nothing, and no
handlers for any other type. -/
def nestedDispatchEnv : DispatchEnv := fun t => if t == "foo" then [[]] else []

/-- C7, evaluated at the failing input.  A user handler body that performs
two dispatch calls in a row — both within the same synchronous handler
stack — fails on the second call with the SynchronousDispatchRequired
error, because the wrapper invoked by the first (nested) dispatch resets
the `async` flag to true when it returns (line 147) instead of restoring
the saved value.  The second conjunct shows the first dispatch alone
succeeds but leaves the flag raised; the third shows the flag-raised
(deferred) dispatch that the error is actually meant to reject. -/
theorem C7_nested_dispatch_eval :
    runActs (runDisp nestedDispatchEnv 5) [Act.dispatch "foo", Act.dispatch "bar"] false [] =
      .error syncMsg ∧
    runActs (runDisp nestedDispatchEnv 5) [Act.dispatch "foo"] false [] = .ok (true, ["foo"]) ∧
    runDisp nestedDispatchEnv 5 "bar" true [] = .error syncMsg :=
  ⟨rfl, rfl, rfl⟩

/-- C8: a spec key whose canonical event type starts with "amara:" and
that declares at least one delegation selector makes the apply-call throw
DelegationNotAllowed synchronously at apply time: the call's result is the
error, no binding for that entry (or any later entry) was added — the
target's listeners and registry hold exactly the bindings of the entries
processed before the throw — and no lifecycle event of this call fires. -/
theorem C8_amara_delegation_throws (M : Node → String → Bool) (acts : List HostAction)
    (maps : List EventMap) (target : Node) (pre post : List (String × HandlerId))
    (k : String) (h : HandlerId)
    (hsplit : maps.flatten = pre ++ (k, h) :: post)
    (hgood : ∀ kh ∈ pre, specThrows (parseSpec kh.1) = false)
    (hbad : specThrows (parseSpec k) = true) :
    (applyEventsToTarget M (run M acts) maps target).2 =
      some "amara:* events must not be delegated" ∧
    (listenersOf (applyEventsToTarget M (run M acts) maps target).1 target).map
        Wrapper.toBinding = pre.map bindingOf ∧
    (∀ ev, (registryArr (applyEventsToTarget M (run M acts) maps target).1 target ev).map
        Wrapper.toBinding =
      (pre.filter (fun kh => (parseSpec kh.1).event == ev)).map bindingOf) ∧
    (applyEventsToTarget M (run M acts) maps target).1.fired = (run M acts).fired := by
  have hInv : Inv (run M acts) := inv_run M acts
  rcases hpre : applyEntries (clearTargetBindings (run M acts) target)
      { target := target, added := false } pre with ⟨stp, ctxp, errp⟩
  have herrp : errp = none := by
    have := applyEntries_all_ok pre (clearTargetBindings (run M acts) target)
      { target := target, added := false } hgood
    rw [hpre] at this
    exact this
  subst herrp
  have hsplitres : applyEntries (clearTargetBindings (run M acts) target)
      { target := target, added := false } maps.flatten =
      (stp, ctxp, some "amara:* events must not be delegated") := by
    rw [hsplit, applyEntries_err_split pre k h post _ _ hgood hbad, hpre]
  have heq := applyEventsToTarget_eq M (run M acts) maps target stp ctxp
    (some "amara:* events must not be delegated") hsplitres
  obtain ⟨-, -, i3, i4, -, -, -⟩ := applyEntries_ok_spec pre
    (clearTargetBindings (run M acts) target) { target := target, added := false } stp ctxp hpre
  have hfired : stp.fired = (run M acts).fired := by
    have := applyEntries_fired pre (clearTargetBindings (run M acts) target)
      { target := target, added := false }
    rw [hpre] at this
    rw [this, clearTargetBindings_fired]
  refine ⟨?_, ?_, ?_, ?_⟩
  · rw [heq]
  · rw [heq]
    show (listenersOf stp target).map Wrapper.toBinding = pre.map bindingOf
    rw [i3, clearTargetBindings_listeners_self _ _ hInv]
    rfl
  · intro ev
    rw [heq]
    show (registryArr stp target ev).map Wrapper.toBinding = _
    rw [i4 ev, clearTargetBindings_registry_self]
    rfl
  · rw [heq]
    exact hfired

/-- C8 witness: the second of three entries is an `amara:add` spec with a
selector; only the first entry's binding survives and the call throws. -/
theorem C8_amara_delegation_throws_witness :
    (applyEventsToTarget oracleFalse (run oracleFalse [])
        [[("click", 0), ("amara:add div", 1), ("keyup", 2)]] 5).2 =
      some "amara:* events must not be delegated" ∧
    (listenersOf (applyEventsToTarget oracleFalse (run oracleFalse [])
        [[("click", 0), ("amara:add div", 1), ("keyup", 2)]] 5).1 5).map Wrapper.toBinding =
      [("click", 0)].map bindingOf ∧
    (applyEventsToTarget oracleFalse (run oracleFalse [])
        [[("click", 0), ("amara:add div", 1), ("keyup", 2)]] 5).1.fired =
      (run oracleFalse []).fired := by
  have h := C8_amara_delegation_throws oracleFalse []
    [[("click", 0), ("amara:add div", 1), ("keyup", 2)]] 5
    [("click", 0)] [("keyup", 2)] "amara:add div" 1 (by decide) (by decide) (by decide)
  exact ⟨h.1, h.2.1, h.2.2.2⟩

/-- C9: over one dispatch, the disabled-element workaround restores the
original attribute-mutation operations (the target ends unpatched), leaves
the disabled attribute present iff the last disabled state set by handler
code during the dispatch was "set" — or, when no handler touched it, iff
it was present before the dispatch — and applies every mutation of any
other attribute exactly as the unpatched operations would. -/
theorem C9_disabled_workaround (t : TargetNode) (ops : List AttrOp) :
    (dispatchAttrEffect t ops).patched = false ∧
    (aget (dispatchAttrEffect t ops).attrs "disabled").isSome =
      disabledStateAfter ops ((aget t.attrs "disabled").isSome) ∧
    (∀ a, a ≠ "disabled" →
      aget (dispatchAttrEffect t ops).attrs a = aget (ops.foldl normalStep t.attrs) a) := by
  have main : ∀ (ops : List AttrOp) (s : PatchState) (a2 : List (String × String)),
      (∀ x, x ≠ "disabled" → aget s.target.attrs x = aget a2 x) →
      (ops.foldl patchedStep s).disabled = disabledStateAfter ops s.disabled ∧
      (ops.foldl patchedStep s).target.patched = s.target.patched ∧
      (∀ x, x ≠ "disabled" →
        aget (ops.foldl patchedStep s).target.attrs x = aget (ops.foldl normalStep a2) x) := by
    intro ops
    induction ops with
    | nil =>
      intro s a2 hx
      exact ⟨rfl, rfl, hx⟩
    | cons op rest ih =>
      intro s a2 hx
      rw [List.foldl_cons, List.foldl_cons]
      cases op with
      | set name value =>
        by_cases hname : name = "disabled"
        · subst hname
          have hx2 : ∀ x, x ≠ "disabled" →
              aget (patchedStep s (AttrOp.set "disabled" value)).target.attrs x =
                aget (normalStep a2 (AttrOp.set "disabled" value)) x := by
            intro x hxd
            show aget s.target.attrs x = aget (aset a2 "disabled" value) x
            rw [aget_aset_ne _ _ _ _ hxd]
            exact hx x hxd
          exact ih (patchedStep s (AttrOp.set "disabled" value)) _ hx2
        · have hstep : patchedStep s (AttrOp.set name value) =
              { s with target := { s.target with attrs := aset s.target.attrs name value } } := by
            rw [patchedStep]
            rw [if_neg hname]
          have hx2 : ∀ x, x ≠ "disabled" →
              aget (aset s.target.attrs name value) x =
                aget (normalStep a2 (AttrOp.set name value)) x := by
            intro x hxd
            show _ = aget (aset a2 name value) x
            by_cases hxn : name = x
            · subst hxn
              rw [aget_aset_self, aget_aset_self]
            · rw [aget_aset_ne _ _ _ _ (fun hh => hxn hh.symm),
                aget_aset_ne _ _ _ _ (fun hh => hxn hh.symm)]
              exact hx x hxd
          rw [hstep]
          obtain ⟨j1, j2, j3⟩ := ih
            { s with target := { s.target with attrs := aset s.target.attrs name value } } _ hx2
          refine ⟨?_, j2, j3⟩
          rw [j1]
          show disabledStateAfter rest s.disabled = _
          simp only [disabledStateAfter, List.foldl_cons]
          rw [if_neg hname]
      | remove name =>
        by_cases hname : name = "disabled"
        · subst hname
          have hx2 : ∀ x, x ≠ "disabled" →
              aget (patchedStep s (AttrOp.remove "disabled")).target.attrs x =
                aget (normalStep a2 (AttrOp.remove "disabled")) x := by
            intro x hxd
            show aget s.target.attrs x = aget (adel a2 "disabled") x
            rw [aget_adel_ne _ _ _ hxd]
            exact hx x hxd
          exact ih (patchedStep s (AttrOp.remove "disabled")) _ hx2
        · have hstep : patchedStep s (AttrOp.remove name) =
              { s with target := { s.target with attrs := adel s.target.attrs name } } := by
            rw [patchedStep]
            rw [if_neg hname]
          have hx2 : ∀ x, x ≠ "disabled" →
              aget (adel s.target.attrs name) x =
                aget (normalStep a2 (AttrOp.remove name)) x := by
            intro x hxd
            show _ = aget (adel a2 name) x
            by_cases hxn : x = name
            · subst hxn
              rw [aget_adel_self, aget_adel_self]
            · rw [aget_adel_ne _ _ _ hxn, aget_adel_ne _ _ _ hxn]
              exact hx x hxd
          rw [hstep]
          obtain ⟨j1, j2, j3⟩ := ih
            { s with target := { s.target with attrs := adel s.target.attrs name } } _ hx2
          refine ⟨?_, j2, j3⟩
          rw [j1]
          show disabledStateAfter rest s.disabled = _
          simp only [disabledStateAfter, List.foldl_cons]
          rw [if_neg hname]
  have hpre : ∀ x, x ≠ "disabled" →
      aget (prePatchDisabledBug t).target.attrs x = aget t.attrs x := by
    intro x hxd
    show aget (adel t.attrs "disabled") x = aget t.attrs x
    exact aget_adel_ne _ _ _ hxd
  obtain ⟨m1, m2, m3⟩ := main ops (prePatchDisabledBug t) t.attrs hpre
  refine ⟨?_, ?_, ?_⟩
  · show (postPatchDisabledBug (ops.foldl patchedStep (prePatchDisabledBug t))).patched = false
    cases hd : (ops.foldl patchedStep (prePatchDisabledBug t)).disabled <;>
      simp [postPatchDisabledBug, hd]
  · show (aget (postPatchDisabledBug (ops.foldl patchedStep (prePatchDisabledBug t))).attrs
      "disabled").isSome = _
    have m1x : (ops.foldl patchedStep (prePatchDisabledBug t)).disabled =
        disabledStateAfter ops ((aget t.attrs "disabled").isSome) := m1
    rw [← m1x]
    cases hd : (ops.foldl patchedStep (prePatchDisabledBug t)).disabled <;>
      simp [postPatchDisabledBug, hd, aget_aset_self, aget_adel_self]
  · intro a ha
    show aget (postPatchDisabledBug (ops.foldl patchedStep (prePatchDisabledBug t))).attrs a = _
    have hpost : aget (postPatchDisabledBug (ops.foldl patchedStep (prePatchDisabledBug t))).attrs a =
        aget (ops.foldl patchedStep (prePatchDisabledBug t)).target.attrs a := by
      cases hd : (ops.foldl patchedStep (prePatchDisabledBug t)).disabled <;>
        simp [postPatchDisabledBug, hd, aget_aset_ne _ _ _ _ ha, aget_adel_ne _ _ _ ha]
    rw [hpost]
    exact m3 a ha

/-- C9 witness: a dispatch on a disabled element whose handler sets another
attribute and toggles disabled off. -/
theorem C9_disabled_workaround_witness :
    (dispatchAttrEffect { attrs := [("disabled", ""), ("x", "1")], patched := false }
        [AttrOp.set "y" "2", AttrOp.remove "disabled"]).patched = false ∧
    (aget (dispatchAttrEffect { attrs := [("disabled", ""), ("x", "1")], patched := false }
        [AttrOp.set "y" "2", AttrOp.remove "disabled"]).attrs "disabled").isSome =
      disabledStateAfter [AttrOp.set "y" "2", AttrOp.remove "disabled"]
        ((aget ([("disabled", ""), ("x", "1")] : List (String × String)) "disabled").isSome) ∧
    aget (dispatchAttrEffect { attrs := [("disabled", ""), ("x", "1")], patched := false }
        [AttrOp.set "y" "2", AttrOp.remove "disabled"]).attrs "y" =
      aget ([AttrOp.set "y" "2", AttrOp.remove "disabled"].foldl normalStep
        [("disabled", ""), ("x", "1")]) "y" := by
  have h := C9_disabled_workaround { attrs := [("disabled", ""), ("x", "1")], patched := false }
    [AttrOp.set "y" "2", AttrOp.remove "disabled"]
  exact ⟨h.1, h.2.1, h.2.2 "y" (by decide)⟩

/-- The event-type token as literally written in a spec key: the first
dot-separated piece of the leading non-whitespace run, trimmed and
lower-cased but not canonicalized. -/
def writtenEventToken (k : String) : String :=
  trimLower ((splitOnChar '.' (splitEventAndSelectors k).1).headD "")

/-- C10: the friendly-name table `asMeta` is applied to the event-type
token itself, not only to the meta qualifiers: binding a spec key
registers the listener under `asMeta` of the written (trimmed,
lower-cased) event token, so whenever the table changes the token
(space, left, middle, wheel, right), an event of the literally written
type name never triggers the handler. -/
theorem C10_event_token_canonicalized (M : Node → String → Bool) (k : String)
    (h : HandlerId) (n : Node) (e : Ev)
    (hok : (applyEventsToTarget M init [[(k, h)]] n).2 = none) :
    (listenersOf (applyEventsToTarget M init [[(k, h)]] n).1 n).map (fun w => w.event) =
      [asMeta (writtenEventToken k)] ∧
    (e.type = writtenEventToken k → asMeta e.type ≠ e.type →
      fireEvent M (applyEventsToTarget M init [[(k, h)]] n).1 e n = []) := by
  obtain ⟨h1, -, -⟩ := applyEventsToTarget_ok_state M init [[(k, h)]] n inv_init hok
  have hev : (parseSpec k).event = asMeta (writtenEventToken k) := by
    rw [parseSpec, writtenEventToken]
    show (((splitOnChar '.' (splitEventAndSelectors k).1).map trimLower).map asMeta).headD "" = _
    cases hsplit : splitOnChar '.' (splitEventAndSelectors k).1 with
    | nil => rfl
    | cons p ps => rfl
  have hevmap : (listenersOf (applyEventsToTarget M init [[(k, h)]] n).1 n).map
      (fun w => w.event) =
      ((listenersOf (applyEventsToTarget M init [[(k, h)]] n).1 n).map Wrapper.toBinding).map
        (fun b => b.event) := by
    rw [List.map_map]
    rfl
  constructor
  · rw [hevmap, h1]
    show [(bindingOf (k, h)).event] = _
    show [(parseSpec k).event] = _
    rw [hev]
  · intro hty hne
    rw [fireEvent_eq_bindings, h1]
    show List.filterMap _ [bindingOf (k, h)] = []
    rw [List.filterMap_cons]
    have hcond : ((bindingOf (k, h)).event == e.type && bindingFires M (bindingOf (k, h)) e)
        = false := by
      have hbev : (bindingOf (k, h)).event = asMeta e.type := by
        show (parseSpec k).event = _
        rw [hev, hty]
      rw [hbev]
      have : (asMeta e.type == e.type) = false := beq_eq_false_iff_ne.mpr hne
      rw [this, Bool.false_and]
    rw [hcond]
    rfl

/-- C10 witness: the spec key "left" binds the listener under the
canonical type "0"; an event whose type is literally "left" does not
trigger it. -/
theorem C10_event_token_canonicalized_witness :
    (listenersOf (applyEventsToTarget oracleFalse init [[("left", 4)]] 2).1 2).map
        (fun w => w.event) = [asMeta (writtenEventToken "left")] ∧
    fireEvent oracleFalse (applyEventsToTarget oracleFalse init [[("left", 4)]] 2).1
      { type := "left", target := 2, key := "", button := 0 } 2 = [] := by
  have h := C10_event_token_canonicalized oracleFalse "left" 4 2
    { type := "left", target := 2, key := "", button := 0 } (by decide)
  exact ⟨h.1, h.2 (by decide) (by decide)⟩

end AmaraPluginEvents
